import Mathlib

/-!
Verification of the media-search core (tokenizer, date parser, inverted
index, BM25 query engine, and the API route's filter/sort layer) against
its natural-language specification.

Strings are embedded as lists of characters (`Str := List Char`); the
order on `Str` is the lexicographic order on code points, matching the
spec's "code-point-ascending" vocabulary order.  JavaScript `Map` and
`Set` values are embedded as insertion-ordered association lists.
Scores are exact rationals; the natural logarithm used by BM25 is kept
as an explicit function parameter `lg` because none of the verified
properties depend on its values.
-/

namespace ImagoSearch

/-- Strings as lists of characters (JS strings are sequences of code units;
all inputs of interest here are BMP text, where code units and code points
agree). -/
abbrev Str := List Char

/-- Character-list literal from a Lean string literal. -/
def strL (s : String) : Str := s.data

/-! ## Text normalizer (`preprocess.ts`, `normalizeGerman`) -/

/-- Lowercasing table: ASCII `A`–`Z` and the German capitals `Ä`, `Ö`,
`Ü`, `ẞ`. -/
def lowerTable : List (Char × Char) :=
  [('A', 'a'), ('B', 'b'), ('C', 'c'), ('D', 'd'), ('E', 'e'), ('F', 'f'),
   ('G', 'g'), ('H', 'h'), ('I', 'i'), ('J', 'j'), ('K', 'k'), ('L', 'l'),
   ('M', 'm'), ('N', 'n'), ('O', 'o'), ('P', 'p'), ('Q', 'q'), ('R', 'r'),
   ('S', 's'), ('T', 't'), ('U', 'u'), ('V', 'v'), ('W', 'w'), ('X', 'x'),
   ('Y', 'y'), ('Z', 'z'), ('Ä', 'ä'), ('Ö', 'ö'), ('Ü', 'ü'), ('ẞ', 'ß')]

/-- Table lookup used by `jsToLower`. -/
def lookupLower (c : Char) : List (Char × Char) → Option Char
  | [] => none
  | (k, v) :: rest => if k = c then some v else lookupLower c rest

/-- Model of JavaScript `String.prototype.toLowerCase` restricted to the
characters this pipeline distinguishes: ASCII `A`–`Z` and the German
capitals `Ä`, `Ö`, `Ü`, `ẞ`; all other code points are left unchanged. -/
def jsToLower (c : Char) : Char :=
  (lookupLower c lowerTable).getD c

/-- Model of `text.replace(/c/g, r)` for a single-character pattern `c`:
every occurrence of `c` is replaced by the string `r`. -/
def replaceChar (c : Char) (r : Str) : Str → Str
  | [] => []
  | x :: xs => (if x = c then r else [x]) ++ replaceChar c r xs

/-- The normalizer `normalizeGerman` from `preprocess.ts`: lowercase, then fold the four
German special characters to their ASCII transliterations. -/
def normalizeGerman (t : Str) : Str :=
  replaceChar 'ß' (strL "ss")
    (replaceChar 'ü' (strL "ue")
      (replaceChar 'ö' (strL "oe")
        (replaceChar 'ä' (strL "ae") (t.map jsToLower))))

/-! ## Stopwords (`stopwords.ts`) -/

/-- The list `MINIMAL_STOPWORDS` from `stopwords.ts`, in source order. -/
def MINIMAL_STOPWORDS : List Str :=
  [strL "der", strL "die", strL "das", strL "den", strL "dem", strL "des",
   strL "ein", strL "eine", strL "einer", strL "einem", strL "einen", strL "eines",
   strL "in", strL "im", strL "an", strL "am", strL "auf", strL "aus", strL "bei",
   strL "mit", strL "nach", strL "von", strL "vor", strL "zu", strL "zum", strL "zur",
   strL "durch", strL "fuer", strL "gegen", strL "ohne", strL "um", strL "unter", strL "ueber",
   strL "und", strL "oder", strL "aber", strL "denn", strL "weil", strL "wenn",
   strL "als", strL "ob", strL "dass",
   strL "ich", strL "du", strL "er", strL "sie", strL "es", strL "wir", strL "ihr",
   strL "mein", strL "dein", strL "sein", strL "ihr", strL "unser", strL "euer",
   strL "dieser", strL "diese", strL "dieses", strL "jener", strL "jene", strL "jenes",
   strL "welcher", strL "welche", strL "welches",
   strL "ist", strL "sind", strL "war", strL "waren", strL "wird", strL "werden",
   strL "hat", strL "haben", strL "hatte", strL "hatten",
   strL "kann", strL "koennen", strL "muss", strL "muessen", strL "soll", strL "sollen",
   strL "will", strL "wollen",
   strL "nicht", strL "auch", strL "nur", strL "noch", strL "schon", strL "sehr",
   strL "so", strL "wie", strL "was", strL "wer",
   strL "hier", strL "dort", strL "dann", strL "daher", strL "dabei", strL "dazu",
   strL "imago"]

/-- The umlaut folding applied to each stopword in `stopwords.ts` (no
lowercasing there, only the four replacements). -/
def foldUmlauts (t : Str) : Str :=
  replaceChar 'ß' (strL "ss")
    (replaceChar 'ü' (strL "ue")
      (replaceChar 'ö' (strL "oe")
        (replaceChar 'ä' (strL "ae") t)))

/-- The set `GERMAN_STOPWORDS`: the set built from the minimal list together with
its umlaut-folded copies.  A JS `Set` is modelled by list membership. -/
def GERMAN_STOPWORDS : List Str :=
  MINIMAL_STOPWORDS ++ MINIMAL_STOPWORDS.map foldUmlauts

/-! ## Tokenizer (`tokenizer.ts`) -/

/-- The token-separator class of the split regex
`[\s,.;:!?"'()\[\]{}]+` (JS `\s` whitespace plus listed punctuation). -/
def isSepChar (c : Char) : Bool :=
  c ∈ [' ', '\t', '\n', '\r', '\x0b', '\x0c', '\u00A0', '\u1680',
       '\u2000', '\u2001', '\u2002', '\u2003', '\u2004', '\u2005',
       '\u2006', '\u2007', '\u2008', '\u2009', '\u200A', '\u2028',
       '\u2029', '\u202F', '\u205F', '\u3000', '\uFEFF',
       ',', '.', ';', ':', '!', '?', '"', '\'', '(', ')', '[', ']', '{', '}']

/-- Word accumulator for `splitWords` (`cur` holds the current run in
reverse). -/
def splitWordsAux : Str → Str → List Str
  | [], cur => if cur = [] then [] else [cur.reverse]
  | c :: cs, cur =>
    if isSepChar c then
      if cur = [] then splitWordsAux cs []
      else cur.reverse :: splitWordsAux cs []
    else splitWordsAux cs (c :: cur)

/-- Split into the maximal runs of non-separator characters (the JS split
on separator runs with empty pieces filtered by `.filter(Boolean)`). -/
def splitWords (s : Str) : List Str := splitWordsAux s []

/-- Per-word hyphen handling from `tokenize` step 3. -/
def processWord (w : Str) : List Str :=
  if w.contains '-' then
    let parts := (w.splitOn '-').filter (fun p => 2 ≤ p.length)
    if 2 ≤ parts.length then
      (if 2 ≤ w.length then [w] else []) ++ parts
    else
      if 2 ≤ w.length then [w.filter (fun c => c ≠ '-')] else []
  else
    if 2 ≤ w.length then [w] else []

/-- The tokenizer pipeline after normalization: split, hyphen handling,
stopword removal. -/
def tokenizeRest (n : Str) : List Str :=
  (((splitWords n).map processWord).flatten).filter
    (fun token => ¬ GERMAN_STOPWORDS.contains token)

/-- The tokenizer `tokenize` from `tokenizer.ts`: normalize, then split/hyphen/stopword. -/
def tokenize (t : Str) : List Str :=
  tokenizeRest (normalizeGerman t)

/-! ## Date parser (`preprocess.ts`, `parseDate`) -/

/-- JS whitespace as removed by `String.prototype.trim`. -/
def jsWhitespace (c : Char) : Bool :=
  c ∈ [' ', '\t', '\n', '\r', '\x0b', '\x0c', '\u00A0', '\u1680',
       '\u2000', '\u2001', '\u2002', '\u2003', '\u2004', '\u2005',
       '\u2006', '\u2007', '\u2008', '\u2009', '\u200A', '\u2028',
       '\u2029', '\u202F', '\u205F', '\u3000', '\uFEFF']

/-- Model of `String.prototype.trim`: strip whitespace from both ends. -/
def jsTrim (s : Str) : Str :=
  ((s.dropWhile jsWhitespace).reverse.dropWhile jsWhitespace).reverse

/-- Model of `padStart(2, '0')` on a day/month capture of one or two digits. -/
def pad2 (d : Str) : Str := if d.length = 1 then '0' :: d else d

/-- Anchored match of `^(\d{1,2})sep(\d{1,2})sep(\d{4})$` (with `sep` the
dot or the slash), returning the three capture groups.  Because the
separator is not a digit, the greedy bounded digit groups are equivalent
to taking each maximal digit run and checking its length. -/
def matchDMY (sep : Char) (s : Str) : Option (Str × Str × Str) :=
  let d := s.takeWhile Char.isDigit
  if 1 ≤ d.length ∧ d.length ≤ 2 then
    match s.dropWhile Char.isDigit with
    | c1 :: r2 =>
      if c1 = sep then
        let m := r2.takeWhile Char.isDigit
        if 1 ≤ m.length ∧ m.length ≤ 2 then
          match r2.dropWhile Char.isDigit with
          | c2 :: r4 =>
            if c2 = sep then
              let y := r4.takeWhile Char.isDigit
              if y.length = 4 ∧ r4.dropWhile Char.isDigit = [] then
                some (d, m, y)
              else none
            else none
          | [] => none
        else none
      else none
    | [] => none
  else none

/-- Anchored test of `^\d{4}-\d{2}-\d{2}$`. -/
def matchISO (s : Str) : Bool :=
  decide ((s.takeWhile Char.isDigit).length = 4) &&
    match s.dropWhile Char.isDigit with
    | c1 :: r2 =>
      decide (c1 = '-') && decide ((r2.takeWhile Char.isDigit).length = 2) &&
        match r2.dropWhile Char.isDigit with
        | c2 :: r4 =>
          decide (c2 = '-') && decide ((r4.takeWhile Char.isDigit).length = 2) &&
            decide (r4.dropWhile Char.isDigit = [])
        | [] => false
    | [] => false

/-- The date parser `parseDate` from `preprocess.ts`: trim, then try `DD.MM.YYYY`,
`DD/MM/YYYY`, and ISO passthrough in that order; `none` otherwise. -/
def parseDate (s : Str) : Option Str :=
  let t := jsTrim s
  match matchDMY '.' t with
  | some (d, m, y) => some (y ++ '-' :: (pad2 m ++ '-' :: pad2 d))
  | none =>
    match matchDMY '/' t with
    | some (d, m, y) => some (y ++ '-' :: (pad2 m ++ '-' :: pad2 d))
    | none => if matchISO t then some t else none

/-- The declarative reading of the anchored regex
`^(\d{1,2})sep(\d{1,2})sep(\d{4})$`. -/
def DMYdecomp (sep : Char) (t d m y : Str) : Prop :=
  t = d ++ sep :: (m ++ sep :: y) ∧
    (∀ c ∈ d, c.isDigit = true) ∧ 1 ≤ d.length ∧ d.length ≤ 2 ∧
    (∀ c ∈ m, c.isDigit = true) ∧ 1 ≤ m.length ∧ m.length ≤ 2 ∧
    (∀ c ∈ y, c.isDigit = true) ∧ y.length = 4

/-- The declarative reading of the anchored regex `^\d{4}-\d{2}-\d{2}$`. -/
def ISOdecomp (t : Str) : Prop :=
  ∃ y m d : Str, t = y ++ '-' :: (m ++ '-' :: d) ∧
    (∀ c ∈ y, c.isDigit = true) ∧ y.length = 4 ∧
    (∀ c ∈ m, c.isDigit = true) ∧ m.length = 2 ∧
    (∀ c ∈ d, c.isDigit = true) ∧ d.length = 2

instance (sep : Char) (t d m y : Str) : Decidable (DMYdecomp sep t d m y) := by
  unfold DMYdecomp
  infer_instance

/-! ## Data model (`types.ts`) -/

/-- The record type `ProcessedMediaItem` from `data/types.ts`: the raw record fields plus
the computed ones attached by `preprocessItem`. -/
structure ProcessedMediaItem where
  bildnummer : Str
  suchtext : Str
  fotografen : Str
  datum : Str
  hoehe : Int
  breite : Int
  dateISO : Str
  searchableText : Str
  restrictions : List Str
  photographerNormalized : Str
deriving DecidableEq, Repr

/-- The posting type `Posting` from `search/types.ts`. -/
structure Posting where
  docId : Nat
  termFrequency : Nat
deriving DecidableEq, Repr

/-- Association-list lookup: JS `Map.get`. -/
def alGet {κ ν : Type} [DecidableEq κ] (k : κ) : List (κ × ν) → Option ν
  | [] => none
  | (k', v) :: rest => if k' = k then some v else alGet k rest

/-- Association-list update: JS `Map.set` (update in place, else append,
preserving insertion order). -/
def alSet {κ ν : Type} [DecidableEq κ] (k : κ) (v : ν) : List (κ × ν) → List (κ × ν)
  | [] => [(k, v)]
  | (k', v') :: rest => if k' = k then (k, v) :: rest else (k', v') :: alSet k v rest

/-- Insertion-ordered set insertion: JS `Set.add`. -/
def setAdd (s : List Str) (t : Str) : List Str :=
  if t ∈ s then s else s ++ [t]

/-- The structure `FieldIndex` from `search/types.ts`.  JS `Map`s become insertion-ordered
association lists; `avgDocLength` is an exact rational. -/
structure FieldIndex where
  termPostings : List (Str × List Posting)
  docLengths : List (Nat × Nat)
  totalDocs : Nat
  avgDocLength : Rat
deriving DecidableEq, Repr

/-- The closed field enumeration: `'suchtext' | 'fotografen' | 'bildnummer'`. -/
inductive Field where
  | suchtext
  | fotografen
  | bildnummer
deriving DecidableEq, Repr

/-- The `InvertedIndex` state (`inverted-index.ts`): three field indices,
the document array, the filter lookup sets, and the sorted vocabularies
built by `finalizeIndex`. -/
structure InvertedIndex where
  suchtextIndex : FieldIndex
  fotografenIndex : FieldIndex
  bildnummerIndex : FieldIndex
  documents : List ProcessedMediaItem
  photographers : List Str
  restrictionSet : List Str
  suchtextTermsSorted : List Str
  fotografenTermsSorted : List Str
  bildnummerTermsSorted : List Str
deriving DecidableEq, Repr

/-- The dispatch `getFieldIndex` from `inverted-index.ts`. -/
def getFieldIndex (idx : InvertedIndex) : Field → FieldIndex
  | .suchtext => idx.suchtextIndex
  | .fotografen => idx.fotografenIndex
  | .bildnummer => idx.bildnummerIndex

/-- The per-field sorted term array read by `getPrefixTerms`. -/
def sortedTermsOf (idx : InvertedIndex) : Field → List Str
  | .suchtext => idx.suchtextTermsSorted
  | .fotografen => idx.fotografenTermsSorted
  | .bildnummer => idx.bildnummerTermsSorted

/-- The accessor `getDocument`: array access, `undefined` out of range. -/
def getDocument (idx : InvertedIndex) (docId : Nat) : Option ProcessedMediaItem :=
  idx.documents.get? docId

/-! ## Index finalization (`inverted-index.ts`, `finalizeIndex`) -/

/-- Default JS `Array.sort()` on strings: ascending code-unit order.  The
engine's sort is stable; a stable sort for a total preorder is unique as
a function, so the stable `insertionSort` models it exactly. -/
def sortStrs (l : List Str) : List Str :=
  l.insertionSort (· ≤ ·)

/-- The helper `calculateAvgDocLength`. -/
def calculateAvgDocLength (fi : FieldIndex) : Rat :=
  if fi.totalDocs = 0 then 0
  else ((fi.docLengths.map Prod.snd).sum : Rat) / (fi.totalDocs : Rat)

/-- The keys of a field's term→postings map, in insertion order. -/
def termKeys (fi : FieldIndex) : List Str :=
  fi.termPostings.map Prod.fst

/-- The finalizer `finalizeIndex`: compute the average document lengths and build the
three sorted vocabularies. -/
def finalizeIndex (idx : InvertedIndex) : InvertedIndex :=
  { idx with
    suchtextIndex := { idx.suchtextIndex with
      avgDocLength := calculateAvgDocLength idx.suchtextIndex }
    fotografenIndex := { idx.fotografenIndex with
      avgDocLength := calculateAvgDocLength idx.fotografenIndex }
    bildnummerIndex := { idx.bildnummerIndex with
      avgDocLength := calculateAvgDocLength idx.bildnummerIndex }
    suchtextTermsSorted := sortStrs (termKeys idx.suchtextIndex)
    fotografenTermsSorted := sortStrs (termKeys idx.fotografenIndex)
    bildnummerTermsSorted := sortStrs (termKeys idx.bildnummerIndex) }

/-! ## Prefix lookup (`inverted-index.ts`, `getPrefixTerms`) -/

/-- The binary-search loop of `getPrefixTerms`: lowest index `lo` with
`terms[lo] ≥ pfx` (out-of-range reads use the default `[]`, but the loop
never reads out of range when `hi ≤ terms.length`).  The interval shrinks
on every iteration, so any `fuel ≥ hi − lo` makes this the exact while
loop; `getPrefixTerms` passes `terms.length`. -/
def lowerBound (terms : List Str) (pfx : Str) : Nat → Nat → Nat → Nat
  | 0, lo, _ => lo
  | fuel + 1, lo, hi =>
    if lo < hi then
      let mid := (lo + hi) / 2
      if terms.getD mid [] < pfx then lowerBound terms pfx fuel (mid + 1) hi
      else lowerBound terms pfx fuel lo mid
    else lo

/-- The collection loop of `getPrefixTerms`: starting after the binary
search, collect terms while they start with the prefix and fewer than
`limit` matches have been found; stop at the first non-match. -/
def collectLoop (pfx : Str) (limit : Nat) : List Str → Nat → List Str
  | [], _ => []
  | t :: ts, k =>
    if k < limit then
      if pfx.isPrefixOf t then t :: collectLoop pfx limit ts (k + 1) else []
    else []

/-- The lookup `getPrefixTerms`: empty on an empty vocabulary or empty prefix,
otherwise binary-search then collect up to `limit` matches. -/
def getPrefixTerms (idx : InvertedIndex) (pfx : Str) (f : Field) (limit : Nat) : List Str :=
  let terms := sortedTermsOf idx f
  if terms.length = 0 ∨ pfx = [] then []
  else
    let lo := lowerBound terms pfx terms.length 0 terms.length
    collectLoop pfx limit (terms.drop lo) 0

/-! ## BM25 scorer

Modelled from the spec: the file `bm25.ts` (imported by the searcher as
`computeIDF` and `computeTermScore`) is not among the sources, so the two
pure functions are taken from spec §4.7.  The natural logarithm is kept
abstract as the parameter `lg` — every verified property is independent
of its values — and arithmetic is exact rational arithmetic. -/

/-- Modelled from the spec: `IDF(n, N)` — 0 when `N = 0` or `n = 0`, else
`ln (1 + (N − n + 0.5) / (n + 0.5))`, with `lg` standing for `ln`. -/
def computeIDF (lg : Rat → Rat) (docFreq totalDocs : Nat) : Rat :=
  if totalDocs = 0 ∨ docFreq = 0 then 0
  else lg (1 + ((totalDocs : Rat) - (docFreq : Rat) + 1/2) / ((docFreq : Rat) + 1/2))

/-- Modelled from the spec: `termScore(tf, docLen, avgDocLen, idf, {k1, b})`
— 0 when `avgDocLen = 0` or `tf = 0`, else the BM25 contribution. -/
def computeTermScore (tf docLen : Nat) (avgDocLength idf k1 b : Rat) : Rat :=
  if avgDocLength = 0 ∨ tf = 0 then 0
  else
    idf * ((tf : Rat) * (k1 + 1)) /
      ((tf : Rat) + k1 * (1 - b + b * ((docLen : Rat) / avgDocLength)))

/-! ## Search configuration (`search/types.ts`) -/

/-- The configuration record `SearchConfig`. -/
structure SearchConfig where
  k1 : Rat
  b : Rat
  suchtextWeight : Rat
  fotografenWeight : Rat
  bildnummerWeight : Rat
  minPrefixLength : Nat
  maxPrefixExpansion : Nat
  prefixPenalty : Rat
deriving DecidableEq, Repr

/-- The defaults `DEFAULT_SEARCH_CONFIG`. -/
def DEFAULT_SEARCH_CONFIG : SearchConfig :=
  { k1 := 1.2
    b := 0.75
    suchtextWeight := 3.0
    fotografenWeight := 1.5
    bildnummerWeight := 1.0
    minPrefixLength := 3
    maxPrefixExpansion := 50
    prefixPenalty := 0.8 }

/-- The field-weight dispatch in `scoreTermInField`. -/
def fieldWeight (cfg : SearchConfig) : Field → Rat
  | .suchtext => cfg.suchtextWeight
  | .fotografen => cfg.fotografenWeight
  | .bildnummer => cfg.bildnummerWeight

/-! ## Searcher (`searcher.ts`) -/

/-- The module-level IDF cache `Map<field, Map<term, idf>>`, embedded as
explicit state: field → (term → idf) as nested association lists. -/
abbrev IdfCache := List (Field × List (Str × Rat))

/-- Cache lookup: field map, then term map. -/
def cacheLookup (c : IdfCache) (f : Field) (t : Str) : Option Rat :=
  (alGet f c).bind (alGet t)

/-- Cache insertion: get-or-create the field map, then set the term. -/
def cacheInsert (c : IdfCache) (f : Field) (t : Str) (v : Rat) : IdfCache :=
  match alGet f c with
  | some fc => alSet f (alSet t v fc) c
  | none => c ++ [(f, [(t, v)])]

/-- The cached lookup `getIDF`: cached IDF for a term in a field; the document frequency is
the length of the term's posting list (0 when absent). -/
def getIDF (lg : Rat → Rat) (t : Str) (f : Field) (fi : FieldIndex)
    (c : IdfCache) : Rat × IdfCache :=
  match cacheLookup c f t with
  | some v => (v, c)
  | none =>
    let docFreq := match alGet t fi.termPostings with
      | some ps => ps.length
      | none => 0
    let idf := computeIDF lg docFreq fi.totalDocs
    (idf, cacheInsert c f t idf)

/-- The accumulator entry `DocScoreEntry`: accumulated score and the set of matched terms
(a JS `Set`, embedded as an insertion-ordered duplicate-free list). -/
structure DocScoreEntry where
  score : Rat
  terms : List Str
deriving DecidableEq, Repr

/-- The accumulator `Map<docId, DocScoreEntry>`. -/
abbrev DocScores := List (Nat × DocScoreEntry)

/-- The scorer `scoreTermInField`: look up the postings of `term` in `f`; if any,
compute the (cached) IDF and accumulate a weighted BM25 contribution for
every posting, inserting `term` into each touched document's term set. -/
def scoreTermInField (lg : Rat → Rat) (term : Str) (f : Field)
    (idx : InvertedIndex) (ds : DocScores) (cfg : SearchConfig)
    (isPfx : Bool) (c : IdfCache) : DocScores × IdfCache :=
  let fi := getFieldIndex idx f
  match alGet term fi.termPostings with
  | none => (ds, c)
  | some ps =>
    if ps.length = 0 then (ds, c)
    else
      let (idf, c') := getIDF lg term f fi c
      let w := fieldWeight cfg f
      let pm := if isPfx then cfg.prefixPenalty else 1
      (ps.foldl (fun ds p =>
        let docLen := (alGet p.docId fi.docLengths).getD 0
        let rawScore := computeTermScore p.termFrequency docLen fi.avgDocLength idf cfg.k1 cfg.b
        let finalScore := rawScore * w * pm
        match alGet p.docId ds with
        | some e => alSet p.docId ⟨e.score + finalScore, setAdd e.terms term⟩ ds
        | none => ds ++ [(p.docId, ⟨finalScore, [term]⟩)]) ds, c')

/-- The result type `SearchResult` from `search/types.ts`. -/
structure SearchResult where
  docId : Nat
  item : ProcessedMediaItem
  score : Rat
  matchedTerms : List Str
deriving DecidableEq, Repr

/-- One query term's processing in `search`: exact scoring in the three
fields, then prefix expansion (terms of length ≥ `minPrefixLength`),
scoring each expanded term other than the exact one with the penalty. -/
def processTerm (lg : Rat → Rat) (idx : InvertedIndex) (cfg : SearchConfig)
    (st : DocScores × IdfCache) (term : Str) : DocScores × IdfCache :=
  let s1 := scoreTermInField lg term .suchtext idx st.1 cfg false st.2
  let s2 := scoreTermInField lg term .fotografen idx s1.1 cfg false s1.2
  let s3 := scoreTermInField lg term .bildnummer idx s2.1 cfg false s2.2
  if cfg.minPrefixLength ≤ term.length then
    let e1 := getPrefixTerms idx term .suchtext cfg.maxPrefixExpansion
    let e2 := getPrefixTerms idx term .fotografen cfg.maxPrefixExpansion
    let e3 := getPrefixTerms idx term .bildnummer cfg.maxPrefixExpansion
    let s4 := e1.foldl (fun st pt =>
      if pt = term then st
      else scoreTermInField lg pt .suchtext idx st.1 cfg true st.2) s3
    let s5 := e2.foldl (fun st pt =>
      if pt = term then st
      else scoreTermInField lg pt .fotografen idx st.1 cfg true st.2) s4
    e3.foldl (fun st pt =>
      if pt = term then st
      else scoreTermInField lg pt .bildnummer idx st.1 cfg true st.2) s5
  else s3

/-- The result comparator of `search`: score descending, ties broken by
`dateISO` descending.  `resultLE a b` holds when the comparator orders
`a` no later than `b`. -/
def resultLE (a b : SearchResult) : Bool :=
  if a.score = b.score then decide (b.item.dateISO ≤ a.item.dateISO)
  else decide (b.score < a.score)

/-- The engine `search` from `searcher.ts`, with the module-level IDF cache passed
and returned explicitly.  Empty token list: browse mode, every document
with score 0 in document-id order.  Otherwise: accumulate scores over the
query terms, materialize (skipping unresolvable doc ids), and sort. -/
def search (lg : Rat → Rat) (q : Str) (idx : InvertedIndex)
    (cfg : SearchConfig) (c : IdfCache) : List SearchResult × IdfCache :=
  let queryTerms := tokenize q
  if queryTerms = [] then
    ((idx.documents.enum).map (fun p => ⟨p.1, p.2, 0, []⟩), c)
  else
    let acc := queryTerms.foldl (processTerm lg idx cfg) ([], c)
    let results := acc.1.filterMap (fun p =>
      (getDocument idx p.1).map (fun item => ⟨p.1, item, p.2.score, p.2.terms⟩))
    (results.insertionSort (fun a b => resultLE a b = true), acc.2)

/-- The IDF a field index determines for a term (what `getIDF` computes
on a cache miss). -/
def idfOf (lg : Rat → Rat) (fi : FieldIndex) (t : Str) : Rat :=
  computeIDF lg
    (match alGet t fi.termPostings with
      | some ps => ps.length
      | none => 0)
    fi.totalDocs

/-- A cache is well-formed for an index when every cached value is the
IDF the index determines for that (field, term) pair.  The empty cache
is well-formed, and every cache `search` produces from a well-formed one
is again well-formed. -/
def WfCache (lg : Rat → Rat) (idx : InvertedIndex) (c : IdfCache) : Prop :=
  ∀ f t v, cacheLookup c f t = some v → v = idfOf lg (getFieldIndex idx f) t

/-- A state transformer on (docScores, idfCache) is cache-independent
when, across well-formed caches, its score output does not depend on the
incoming cache and it keeps the cache well-formed. -/
def CacheIndep (lg : Rat → Rat) (idx : InvertedIndex)
    (g : (DocScores × IdfCache) → (DocScores × IdfCache)) : Prop :=
  ∀ (ds : DocScores) (c1 c2 : IdfCache),
    WfCache lg idx c1 → WfCache lg idx c2 →
    (g (ds, c1)).1 = (g (ds, c2)).1 ∧ WfCache lg idx (g (ds, c1)).2

/-- A sequence of prior queries (each with its own configuration) run
against the same index, threading the IDF cache. -/
def runQueries (lg : Rat → Rat) (idx : InvertedIndex)
    (qs : List (Str × SearchConfig)) (c : IdfCache) : IdfCache :=
  qs.foldl (fun c p => (search lg p.1 idx p.2 c).2) c

/-- The list of `(term, field, isPrefix)` scoring calls `search` performs
for one query token: the exact term in all three fields, then — when the
token reaches `minPrefixLength` — every prefix-expanded vocabulary term
other than the token itself, in the field whose expansion produced it. -/
def callsOfTerm (idx : InvertedIndex) (cfg : SearchConfig)
    (term : Str) : List (Str × Field × Bool) :=
  [(term, Field.suchtext, false), (term, Field.fotografen, false),
   (term, Field.bildnummer, false)] ++
  (if cfg.minPrefixLength ≤ term.length then
    ((getPrefixTerms idx term .suchtext cfg.maxPrefixExpansion).filter
        (fun pt => pt ≠ term)).map (fun pt => (pt, Field.suchtext, true)) ++
      ((getPrefixTerms idx term .fotografen cfg.maxPrefixExpansion).filter
        (fun pt => pt ≠ term)).map (fun pt => (pt, Field.fotografen, true)) ++
      ((getPrefixTerms idx term .bildnummer cfg.maxPrefixExpansion).filter
        (fun pt => pt ≠ term)).map (fun pt => (pt, Field.bildnummer, true))
  else [])

/-- All scoring calls of a query, in execution order. -/
def performedCalls (idx : InvertedIndex) (cfg : SearchConfig)
    (queryTerms : List Str) : List (Str × Field × Bool) :=
  queryTerms.flatMap (callsOfTerm idx cfg)

/-- Folding a list of scoring calls over the accumulator state. -/
def applyCalls (lg : Rat → Rat) (idx : InvertedIndex) (cfg : SearchConfig)
    (st : DocScores × IdfCache) (calls : List (Str × Field × Bool)) :
    DocScores × IdfCache :=
  calls.foldl (fun st c => scoreTermInField lg c.1 c.2.1 idx st.1 cfg c.2.2 st.2) st

/-- Document `d` has a posting for `t` in field `f` (the condition under
which `scoreTermInField t f` touches `d`). -/
def postingHit (idx : InvertedIndex) (t : Str) (f : Field) (d : Nat) : Prop :=
  ∃ p ∈ (alGet t (getFieldIndex idx f).termPostings).getD [], p.docId = d

/-- Term `t'` is recorded for document `d` in the accumulator. -/
def memTerms (ds : DocScores) (d : Nat) (t' : Str) : Prop :=
  ∃ e, alGet d ds = some e ∧ t' ∈ e.terms

/-! ## Filter and sort layer (`app/api/search/route.ts`) -/

/-- The shape the route maps search results into before filtering. -/
structure RouteItem where
  item : ProcessedMediaItem
  score : Rat
  matchedTerms : List Str
deriving DecidableEq, Repr

/-- JS truthiness of an optional string parameter (`null` and `''` are
falsy). -/
def optTruthy : Option Str → Bool
  | none => false
  | some s => !s.isEmpty

/-- The string literal `'none'` used as the no-restrictions sentinel. -/
def noneStr : Str := strL "none"

/-- The predicate of `applyFilters`: credit exact match, inclusive date
bounds (skipped for a falsy `dateISO`), and OR-semantics restrictions. -/
def keepItem (credit dFrom dTo : Option Str) (rs : List Str)
    (it : ProcessedMediaItem) : Bool :=
  if optTruthy credit && decide (it.fotografen ≠ credit.getD []) then false
  else if optTruthy dFrom && !it.dateISO.isEmpty &&
      decide (it.dateISO < dFrom.getD []) then false
  else if optTruthy dTo && !it.dateISO.isEmpty &&
      decide (dTo.getD [] < it.dateISO) then false
  else if !rs.isEmpty then
    let hasNone := rs.contains noneStr
    let others := rs.filter (fun r => r ≠ noneStr)
    let matchesNone := hasNone && it.restrictions.isEmpty
    let matchesOther := others.any (fun r => it.restrictions.contains r)
    !(!matchesNone && !matchesOther)
  else true

/-- The filter step `applyFilters` from `route.ts`. -/
def applyFilters (items : List RouteItem) (credit dFrom dTo : Option Str)
    (rs : List Str) : List RouteItem :=
  items.filter (fun ri => keepItem credit dFrom dTo rs ri.item)

/-- Sort order parameter of the route. -/
inductive SortOrder where
  | asc
  | desc
deriving DecidableEq, Repr

/-- The comparator of `sortByDate`: `dateLE ord a b` holds when the
comparison of the `dateISO` strings orders `a` no later than `b`. -/
def dateLE (ord : SortOrder) (a b : RouteItem) : Bool :=
  match ord with
  | .asc => decide (a.item.dateISO ≤ b.item.dateISO)
  | .desc => decide (b.item.dateISO ≤ a.item.dateISO)

/-- The sorter `sortByDate` from `route.ts`: stable sort by `dateISO` in the given
order (`a.item.dateISO || ''` is the identity here since `dateISO` is
already a string). -/
def sortByDate (items : List RouteItem) (ord : SortOrder) : List RouteItem :=
  items.insertionSort (fun a b => dateLE ord a b = true)

/-- The result computation of the route's `GET` handler up to pagination:
query mode vs browse mode, `applyFilters`, then the sort policy (explicit
sort wins; otherwise browse mode defaults to date-descending and query
mode keeps the BM25 order).  The route always calls `search` with the
default configuration. -/
def routeResults (q : Str) (credit dFrom dTo : Option Str) (rs : List Str)
    (srt : Option SortOrder) (lg : Rat → Rat) (idx : InvertedIndex)
    (c : IdfCache) : List RouteItem :=
  let results :=
    if !(jsTrim q).isEmpty then
      ((search lg q idx DEFAULT_SEARCH_CONFIG c).1).map
        (fun r => ⟨r.item, r.score, r.matchedTerms⟩)
    else
      idx.documents.map (fun item => ⟨item, 0, []⟩)
  let filtered := applyFilters results credit dFrom dTo rs
  match srt with
  | some o => sortByDate filtered o
  | none => if (jsTrim q).isEmpty then sortByDate filtered .desc else filtered

/-! ## Concrete fixtures used by the witness theorems -/

/-- A sample processed record (desc "Berlin Portrait", March 2024). -/
def itemMarch : ProcessedMediaItem :=
  ⟨strL "a1", strL "Berlin Portrait", strL "IMAGO / Muller", strL "2024-03-14",
   800, 1200, strL "2024-03-14", strL "berlin portrait", [], strL "imago / muller"⟩

/-- A sample processed record (desc "Berlin Zoo", January 2024). -/
def itemJan : ProcessedMediaItem :=
  ⟨strL "b2", strL "Berlin Zoo", strL "IMAGO / Schmidt", strL "2024-01-01",
   800, 1200, strL "2024-01-01", strL "berlin zoo", [], strL "imago / schmidt"⟩

/-- A sample record whose date failed to parse: `dateISO` fell back to the
raw (empty) `datum`, and one restriction marker was extracted. -/
def itemNoDate : ProcessedMediaItem :=
  ⟨strL "c3", strL "Muenchen PUBLICATIONxINxGERxONLY", strL "IMAGO / Weber", strL "",
   800, 1200, strL "", strL "muenchen", [strL "PUBLICATIONxINxGERxONLY"], strL "imago / weber"⟩

/-- The suchtext field index over `[itemMarch, itemJan]`. -/
def fiSample : FieldIndex :=
  ⟨[(strL "berlin", [⟨0, 1⟩, ⟨1, 1⟩]), (strL "portrait", [⟨0, 1⟩]),
    (strL "zoo", [⟨1, 1⟩])],
   [(0, 2), (1, 2)], 2, 2⟩

/-- An empty field index over two documents of length 0. -/
def fiBlank : FieldIndex := ⟨[], [(0, 0), (1, 0)], 2, 0⟩

/-- A small finalized two-document index (docId 0 is the newer record). -/
def idxSample : InvertedIndex :=
  ⟨fiSample, fiBlank, fiBlank, [itemMarch, itemJan], [], [],
   [strL "berlin", strL "portrait", strL "zoo"], [], []⟩

/-- A concrete stand-in for the logarithm parameter in witnesses. -/
def lgId : Rat → Rat := fun x => x

/-- A two-document index whose document-id order (older first) differs
from date-descending order. -/
def idxJanFirst : InvertedIndex :=
  ⟨fiBlank, fiBlank, fiBlank, [itemJan, itemMarch], [], [], [], [], []⟩

/-! ## C3: empty token list means browse mode -/

/-- On an empty token list, `search` takes the browse path: one result
per document in document order, score 0, no matched terms. -/
theorem search_browse (lg : Rat → Rat) (q : Str) (idx : InvertedIndex)
    (cfg : SearchConfig) (c : IdfCache) (h : tokenize q = []) :
    (search lg q idx cfg c).1
      = (idx.documents.enum).map (fun p => ⟨p.1, p.2, 0, []⟩) := by
  simp [search, h]

/-- C3: if the query tokenizes to the empty token list, `search` returns
exactly one result per document, in ascending document-id order, each
with score 0 and an empty `matchedTerms` list. -/
theorem C3_browse_mode (lg : Rat → Rat) (q : Str) (idx : InvertedIndex)
    (cfg : SearchConfig) (c : IdfCache) (h : tokenize q = []) :
    (search lg q idx cfg c).1
        = (idx.documents.enum).map (fun p => ⟨p.1, p.2, 0, []⟩) ∧
      ((search lg q idx cfg c).1).length = idx.documents.length ∧
      ((search lg q idx cfg c).1).map SearchResult.docId
        = List.range idx.documents.length ∧
      ∀ r ∈ (search lg q idx cfg c).1, r.score = 0 ∧ r.matchedTerms = [] := by
  have hs := search_browse lg q idx cfg c h
  refine ⟨hs, ?_, ?_, ?_⟩
  · simp [hs]
  · rw [hs]
    rw [List.map_map]
    have : (SearchResult.docId ∘ fun p : Nat × ProcessedMediaItem =>
        (⟨p.1, p.2, 0, []⟩ : SearchResult)) = Prod.fst := rfl
    rw [this, List.enum_map_fst]
  · intro r hr
    rw [hs] at hr
    obtain ⟨p, _, rfl⟩ := List.mem_map.mp hr
    exact ⟨rfl, rfl⟩

/-- Witness for C3 at a stopword-only query over the two-document sample
index. -/
theorem C3_browse_mode_witness :
    tokenize (strL "der und die") = [] ∧
      (search lgId (strL "der und die") idxSample DEFAULT_SEARCH_CONFIG []).1
        = [⟨0, itemMarch, 0, []⟩, ⟨1, itemJan, 0, []⟩] := by
  refine ⟨by decide, ?_⟩
  have h := (C3_browse_mode lgId (strL "der und die") idxSample
    DEFAULT_SEARCH_CONFIG [] (by decide)).1
  rw [h]
  decide

/-! ## C1: date-range filtering -/

/-- C1 counterexample: with a lower date bound set, a record whose
`isoDate` is the empty string is KEPT by `applyFilters` (the truthiness
guard `item.dateISO &&` short-circuits the comparison), while the claim
asserts such a record is removed whenever a date bound is set. -/
theorem C1_counterexample :
    applyFilters [⟨itemNoDate, 0, []⟩] none (some (strL "2024-01-01")) none []
        = [⟨itemNoDate, 0, []⟩] ∧
      itemNoDate.dateISO = [] := by
  decide

/-- C1 amended: with `dateFrom = d1` set (and no other filter), a record
is kept iff its `isoDate` is empty or `isoDate ≥ d1`; with `dateTo = d2`
set, iff its `isoDate` is empty or `isoDate ≤ d2`.  Records with an empty
`isoDate` always pass the date filters. -/
theorem C1_date_filter (items : List RouteItem) (ri : RouteItem)
    (d1 d2 : Str) (h1 : d1 ≠ []) (h2 : d2 ≠ []) :
    (ri ∈ applyFilters items none (some d1) none [] ↔
        ri ∈ items ∧ (ri.item.dateISO = [] ∨ d1 ≤ ri.item.dateISO)) ∧
      (ri ∈ applyFilters items none none (some d2) [] ↔
        ri ∈ items ∧ (ri.item.dateISO = [] ∨ ri.item.dateISO ≤ d2)) := by
  have hd1 : d1.isEmpty = false := by
    cases d1 with
    | nil => exact absurd rfl h1
    | cons a l => rfl
  have hd2 : d2.isEmpty = false := by
    cases d2 with
    | nil => exact absurd rfl h2
    | cons a l => rfl
  constructor
  · rw [applyFilters, List.mem_filter]
    refine and_congr_right fun _ => ?_
    simp [keepItem, optTruthy, hd1, List.isEmpty_iff, not_lt]
  · rw [applyFilters, List.mem_filter]
    refine and_congr_right fun _ => ?_
    simp [keepItem, optTruthy, hd2, List.isEmpty_iff, not_lt]

/-- Witness for C1 at concrete bounds over the sample records. -/
theorem C1_date_filter_witness :
    strL "2024-02-01" ≠ [] ∧ strL "2024-02-01" ≠ [] ∧
      ((⟨itemMarch, 0, []⟩ : RouteItem) ∈
          applyFilters [⟨itemMarch, 0, []⟩, ⟨itemJan, 0, []⟩]
            none (some (strL "2024-02-01")) none [] ↔
        (⟨itemMarch, 0, []⟩ : RouteItem) ∈
            [(⟨itemMarch, 0, []⟩ : RouteItem), ⟨itemJan, 0, []⟩] ∧
          (itemMarch.dateISO = [] ∨ strL "2024-02-01" ≤ itemMarch.dateISO)) := by
  refine ⟨by decide, by decide, ?_⟩
  exact (C1_date_filter [⟨itemMarch, 0, []⟩, ⟨itemJan, 0, []⟩] ⟨itemMarch, 0, []⟩
    (strL "2024-02-01") (strL "2024-02-01") (by decide) (by decide)).1

/-! ## C5: restrictions filter -/

/-- C5: with a non-empty selected restriction list `rs` (and no other
filter), a record passes iff `'none' ∈ rs` and its markers are empty, or
its markers intersect `rs \ {'none'}`; `rs = ['none']` keeps exactly the
records with no markers; an empty `rs` imposes no filter. -/
theorem C5_restrictions_filter (items : List RouteItem) (ri : RouteItem)
    (rs : List Str) (h : rs ≠ []) :
    (ri ∈ applyFilters items none none none rs ↔
        ri ∈ items ∧ ((noneStr ∈ rs ∧ ri.item.restrictions = []) ∨
          ∃ r ∈ rs, r ≠ noneStr ∧ r ∈ ri.item.restrictions)) ∧
      (ri ∈ applyFilters items none none none [noneStr] ↔
        ri ∈ items ∧ ri.item.restrictions = []) ∧
      (ri ∈ applyFilters items none none none [] ↔ ri ∈ items) := by
  have key : ∀ rs' : List Str, rs' ≠ [] →
      (ri ∈ applyFilters items none none none rs' ↔
        ri ∈ items ∧ ((noneStr ∈ rs' ∧ ri.item.restrictions = []) ∨
          ∃ r ∈ rs', r ≠ noneStr ∧ r ∈ ri.item.restrictions)) := by
    intro rs' hne
    rw [applyFilters, List.mem_filter]
    refine and_congr_right fun _ => ?_
    have hrs : rs'.isEmpty = false := by
      cases rs' with
      | nil => exact absurd rfl hne
      | cons a l => rfl
    simp [keepItem, optTruthy, hrs, List.elem_iff, List.isEmpty_iff,
      List.any_eq_true, List.mem_filter]
  refine ⟨key rs h, ?_, ?_⟩
  · rw [key [noneStr] (by simp)]
    refine and_congr_right fun _ => ?_
    constructor
    · rintro (⟨_, he⟩ | ⟨r, hr, hrn, _⟩)
      · exact he
      · simp at hr
        exact absurd hr hrn
    · intro he
      exact Or.inl ⟨by simp, he⟩
  · rw [applyFilters, List.mem_filter]
    have hk : keepItem none none none [] ri.item = true := by
      simp [keepItem, optTruthy]
    simp [hk]

/-- Witness for C5: `restrictions = ['none']` keeps the marker-free
record and drops the marked one. -/
theorem C5_restrictions_filter_witness :
    ([strL "none"] : List Str) ≠ [] ∧
      ((⟨itemNoDate, 0, []⟩ : RouteItem) ∈
          applyFilters [⟨itemMarch, 0, []⟩, ⟨itemNoDate, 0, []⟩]
            none none none [strL "none"] ↔
        (⟨itemNoDate, 0, []⟩ : RouteItem) ∈
            [(⟨itemMarch, 0, []⟩ : RouteItem), ⟨itemNoDate, 0, []⟩] ∧
          itemNoDate.restrictions = []) := by
  refine ⟨by decide, ?_⟩
  have h := (C5_restrictions_filter [⟨itemMarch, 0, []⟩, ⟨itemNoDate, 0, []⟩]
    ⟨itemNoDate, 0, []⟩ [strL "none"] (by decide)).2.1
  simpa [noneStr] using h

/-! ## C7: double-normalization invariance -/

/-- A successful lowercase lookup returns a table entry. -/
theorem lookupLower_mem {c v : Char} :
    ∀ {l : List (Char × Char)}, lookupLower c l = some v → (c, v) ∈ l := by
  intro l
  induction l with
  | nil => intro h; exact absurd h (by simp [lookupLower])
  | cons p rest ih =>
    obtain ⟨pk, pv⟩ := p
    intro h
    rw [lookupLower] at h
    by_cases hk : pk = c
    · rw [if_pos hk] at h
      obtain rfl := hk
      obtain rfl : pv = v := by simpa using h
      exact List.mem_cons_self _ _
    · rw [if_neg hk] at h
      exact List.mem_cons_of_mem _ (ih h)

/-- Every lowercase output of the table is itself outside the table's
domain. -/
theorem lowerTable_image_fix :
    ∀ p ∈ lowerTable, lookupLower p.2 lowerTable = none := by
  decide

/-- The lowercasing map `jsToLower` is idempotent. -/
theorem jsToLower_fix (c : Char) : jsToLower (jsToLower c) = jsToLower c := by
  cases h : lookupLower c lowerTable with
  | none =>
    have hc : jsToLower c = c := by rw [jsToLower, h]; rfl
    rw [hc, hc]
  | some v =>
    have hc : jsToLower c = v := by rw [jsToLower, h]; rfl
    have hv := lowerTable_image_fix _ (lookupLower_mem h)
    have hvv : jsToLower v = v := by rw [jsToLower]; rw [hv]; rfl
    rw [hc, hvv]

/-- Membership through `replaceChar`: a character of the output comes
from the replacement string or is an unreplaced input character. -/
theorem mem_replaceChar {y c : Char} {r : Str} :
    ∀ {l : Str}, y ∈ replaceChar c r l → y ∈ r ∨ (y ∈ l ∧ y ≠ c) := by
  intro l
  induction l with
  | nil => intro h; exact absurd h (by simp [replaceChar])
  | cons x xs ih =>
    intro h
    rw [replaceChar] at h
    rcases List.mem_append.mp h with h1 | h2
    · by_cases hx : x = c
      · rw [if_pos hx] at h1
        exact Or.inl h1
      · rw [if_neg hx] at h1
        obtain rfl : y = x := by simpa using h1
        exact Or.inr ⟨List.mem_cons_self _ _, hx⟩
    · rcases ih h2 with h3 | ⟨h4, h5⟩
      · exact Or.inl h3
      · exact Or.inr ⟨List.mem_cons_of_mem _ h4, h5⟩

/-- The replacement `replaceChar` is the identity when the replaced character is absent. -/
theorem replaceChar_eq_self {c : Char} {r : Str} :
    ∀ {l : Str}, c ∉ l → replaceChar c r l = l := by
  intro l
  induction l with
  | nil => intro _; rfl
  | cons x xs ih =>
    intro h
    rw [replaceChar]
    have hx : x ≠ c := fun hc => h (hc ▸ List.mem_cons_self _ _)
    rw [if_neg hx, ih (fun hc => h (List.mem_cons_of_mem _ hc))]
    rfl

/-- Every character of a normalized string is a `jsToLower` fixed point
and is none of the four replaced German characters. -/
theorem normalizeGerman_mem {y : Char} {x : Str} (h : y ∈ normalizeGerman x) :
    jsToLower y = y ∧ y ≠ 'ä' ∧ y ≠ 'ö' ∧ y ≠ 'ü' ∧ y ≠ 'ß' := by
  rw [normalizeGerman] at h
  rcases mem_replaceChar h with hss | ⟨h, hs2⟩
  · obtain rfl : y = 's' := by simpa [strL] using hss
    exact ⟨by decide, by decide, by decide, by decide, by decide⟩
  rcases mem_replaceChar h with hue | ⟨h, hu2⟩
  · rcases (by simpa [strL] using hue : y = 'u' ∨ y = 'e') with rfl | rfl
    · exact ⟨by decide, by decide, by decide, by decide, by decide⟩
    · exact ⟨by decide, by decide, by decide, by decide, by decide⟩
  rcases mem_replaceChar h with hoe | ⟨h, ho2⟩
  · rcases (by simpa [strL] using hoe : y = 'o' ∨ y = 'e') with rfl | rfl
    · exact ⟨by decide, by decide, by decide, by decide, by decide⟩
    · exact ⟨by decide, by decide, by decide, by decide, by decide⟩
  rcases mem_replaceChar h with hae | ⟨h, ha2⟩
  · rcases (by simpa [strL] using hae : y = 'a' ∨ y = 'e') with rfl | rfl
    · exact ⟨by decide, by decide, by decide, by decide, by decide⟩
    · exact ⟨by decide, by decide, by decide, by decide, by decide⟩
  obtain ⟨z, _, rfl⟩ := List.mem_map.mp h
  exact ⟨jsToLower_fix z, ha2, ho2, hu2, hs2⟩

/-- The German normalizer is idempotent. -/
theorem normalizeGerman_idem (x : Str) :
    normalizeGerman (normalizeGerman x) = normalizeGerman x := by
  have hmap : (normalizeGerman x).map jsToLower = normalizeGerman x := by
    conv_rhs => rw [show normalizeGerman x = (normalizeGerman x).map id from (List.map_id _).symm]
    exact List.map_congr_left fun y hy => (normalizeGerman_mem hy).1
  have h1 : 'ä' ∉ (normalizeGerman x).map jsToLower := by
    rw [hmap]
    intro hy
    exact (normalizeGerman_mem hy).2.1 rfl
  conv_lhs => rw [normalizeGerman]
  rw [replaceChar_eq_self h1, hmap]
  have h2 : 'ö' ∉ normalizeGerman x := fun hy => (normalizeGerman_mem hy).2.2.1 rfl
  rw [replaceChar_eq_self h2]
  have h3 : 'ü' ∉ normalizeGerman x := fun hy => (normalizeGerman_mem hy).2.2.2.1 rfl
  rw [replaceChar_eq_self h3]
  have h4 : 'ß' ∉ normalizeGerman x := fun hy => (normalizeGerman_mem hy).2.2.2.2 rfl
  rw [replaceChar_eq_self h4]

/-- C7: pre-normalizing the input with the German normalizer before
tokenizing never changes the token stream:
`tokenize (normalize x) = tokenize x` for every string `x`. -/
theorem C7_double_normalization (x : Str) :
    tokenize (normalizeGerman x) = tokenize x := by
  rw [tokenize, tokenize, normalizeGerman_idem]

/-! ## C8: the finalized vocabulary is the sorted key set -/

/-- The sorter `sortStrs` sorts: the output is a permutation of the input and, for a
duplicate-free input, strictly ascending. -/
theorem sortStrs_spec (l : List Str) (h : l.Nodup) :
    (sortStrs l).Perm l ∧ (sortStrs l).Nodup ∧
      (sortStrs l).Pairwise (· < ·) ∧ ∀ t, t ∈ sortStrs l ↔ t ∈ l := by
  have hperm : (sortStrs l).Perm l := List.perm_insertionSort _ l
  have hnd : (sortStrs l).Nodup := hperm.nodup_iff.mpr h
  refine ⟨hperm, hnd, ?_, fun t => hperm.mem_iff⟩
  have hsorted : (sortStrs l).Pairwise (· ≤ ·) :=
    List.sorted_insertionSort _ l
  have hand := List.pairwise_and_iff.mpr ⟨hsorted, hnd⟩
  exact hand.imp fun hab => lt_of_le_of_ne hab.1 hab.2

/-- C8: after `finalizeIndex`, the sorted term array of each field
contains exactly the keys of that field's term→postings map, without
duplicates, in code-point-ascending (strictly increasing lexicographic)
order. -/
theorem C8_sorted_vocab (idx : InvertedIndex) (f : Field)
    (h : (termKeys (getFieldIndex idx f)).Nodup) :
    (sortedTermsOf (finalizeIndex idx) f).Perm (termKeys (getFieldIndex idx f)) ∧
      (sortedTermsOf (finalizeIndex idx) f).Nodup ∧
      (sortedTermsOf (finalizeIndex idx) f).Pairwise (· < ·) ∧
      ∀ t, t ∈ sortedTermsOf (finalizeIndex idx) f ↔
        t ∈ termKeys (getFieldIndex idx f) := by
  cases f with
  | suchtext => exact sortStrs_spec _ h
  | fotografen => exact sortStrs_spec _ h
  | bildnummer => exact sortStrs_spec _ h

/-- Witness for C8 on the sample index. -/
theorem C8_sorted_vocab_witness :
    (termKeys (getFieldIndex idxSample .suchtext)).Nodup ∧
      (sortedTermsOf (finalizeIndex idxSample) .suchtext).Pairwise (· < ·) ∧
      sortedTermsOf (finalizeIndex idxSample) .suchtext
        = [strL "berlin", strL "portrait", strL "zoo"] := by
  refine ⟨by decide, (C8_sorted_vocab idxSample .suchtext (by decide)).2.2.1, ?_⟩
  with_unfolding_all decide

/-! ## C4: the date parser -/

/-- Splitting a maximal run: if every element of `a` satisfies `p` and
`b` does not, `takeWhile`/`dropWhile` split `a ++ b :: r` at `b`. -/
theorem splitRun (p : Char → Bool) :
    ∀ (a : Str) (b : Char) (r : Str), (∀ x ∈ a, p x = true) → p b = false →
      (a ++ b :: r).takeWhile p = a ∧ (a ++ b :: r).dropWhile p = b :: r := by
  intro a
  induction a with
  | nil =>
    intro b r _ hb
    simp [List.takeWhile_cons, List.dropWhile_cons, hb]
  | cons x xs ih =>
    intro b r ha hb
    have hx : p x = true := ha x (List.mem_cons_self _ _)
    have hxs := ih b r (fun z hz => ha z (List.mem_cons_of_mem _ hz)) hb
    simp [List.takeWhile_cons, List.dropWhile_cons, hx, hxs.1, hxs.2]

/-- A list all of whose elements satisfy `p` is its own `takeWhile` run. -/
theorem allRun (p : Char → Bool) :
    ∀ a : Str, (∀ x ∈ a, p x = true) →
      a.takeWhile p = a ∧ a.dropWhile p = [] := by
  intro a
  induction a with
  | nil => intro _; exact ⟨rfl, rfl⟩
  | cons x xs ih =>
    intro ha
    have hx : p x = true := ha x (List.mem_cons_self _ _)
    have hxs := ih (fun z hz => ha z (List.mem_cons_of_mem _ hz))
    simp [List.takeWhile_cons, List.dropWhile_cons, hx, hxs.1, hxs.2]

/-- The takeWhile-based matcher agrees with the declarative reading of
the date regexes (for a non-digit separator). -/
theorem matchDMY_iff {sep : Char} (hsep : sep.isDigit = false) (t d m y : Str) :
    matchDMY sep t = some (d, m, y) ↔ DMYdecomp sep t d m y := by
  constructor
  · intro h
    rw [matchDMY] at h
    by_cases h1 : 1 ≤ (t.takeWhile Char.isDigit).length ∧
        (t.takeWhile Char.isDigit).length ≤ 2
    swap
    · rw [if_neg h1] at h; exact absurd h (by simp)
    rw [if_pos h1] at h
    cases hdrop : t.dropWhile Char.isDigit with
    | nil => rw [hdrop] at h; exact absurd h (by simp)
    | cons c1 r2 =>
      rw [hdrop] at h
      simp only [] at h
      by_cases hc1 : c1 = sep
      swap
      · rw [if_neg hc1] at h; exact absurd h (by simp)
      rw [if_pos hc1] at h
      by_cases h2 : 1 ≤ (r2.takeWhile Char.isDigit).length ∧
          (r2.takeWhile Char.isDigit).length ≤ 2
      swap
      · rw [if_neg h2] at h; exact absurd h (by simp)
      rw [if_pos h2] at h
      cases hdrop2 : r2.dropWhile Char.isDigit with
      | nil => rw [hdrop2] at h; exact absurd h (by simp)
      | cons c2 r4 =>
        rw [hdrop2] at h
        simp only [] at h
        by_cases hc2 : c2 = sep
        swap
        · rw [if_neg hc2] at h; exact absurd h (by simp)
        rw [if_pos hc2] at h
        by_cases h3 : (r4.takeWhile Char.isDigit).length = 4 ∧
            r4.dropWhile Char.isDigit = []
        swap
        · rw [if_neg h3] at h; exact absurd h (by simp)
        rw [if_pos h3] at h
        obtain ⟨rfl, rfl, rfl⟩ : t.takeWhile Char.isDigit = d ∧
            r2.takeWhile Char.isDigit = m ∧ r4.takeWhile Char.isDigit = y := by
          have := Option.some.inj h
          exact ⟨congrArg Prod.fst this,
            congrArg Prod.fst (congrArg Prod.snd this),
            congrArg Prod.snd (congrArg Prod.snd this)⟩
        have ht : t = t.takeWhile Char.isDigit ++ (c1 :: r2) := by
          rw [← hdrop, List.takeWhile_append_dropWhile]
        have hr2 : r2 = r2.takeWhile Char.isDigit ++ (c2 :: r4) := by
          rw [← hdrop2, List.takeWhile_append_dropWhile]
        have hr4 : r4 = r4.takeWhile Char.isDigit := by
          conv_lhs => rw [← List.takeWhile_append_dropWhile Char.isDigit r4]
          rw [h3.2, List.append_nil]
        refine ⟨?_, fun c hc => List.mem_takeWhile_imp hc, h1.1, h1.2,
          fun c hc => List.mem_takeWhile_imp hc, h2.1, h2.2,
          fun c hc => List.mem_takeWhile_imp hc, h3.1⟩
        rw [hc1] at ht
        rw [hc2] at hr2
        conv_lhs => rw [ht]
        congr 1
        congr 1
        rw [← hr4]
        exact hr2
  · rintro ⟨rfl, hd, hd1, hd2, hm, hm1, hm2, hy, hy4⟩
    have s1 := splitRun Char.isDigit d sep (m ++ sep :: y) hd hsep
    have s2 := splitRun Char.isDigit m sep y hm hsep
    have s3 := allRun Char.isDigit y hy
    rw [matchDMY]
    simp [s1.1, s1.2, s2.1, s2.2, s3.1, s3.2, hd1, hd2, hm1, hm2, hy4]

/-- The ISO matcher agrees with the declarative reading. -/
theorem matchISO_iff (t : Str) : matchISO t = true ↔ ISOdecomp t := by
  constructor
  · intro h
    rw [matchISO, Bool.and_eq_true, decide_eq_true_eq] at h
    obtain ⟨hy4, h⟩ := h
    cases hdrop : t.dropWhile Char.isDigit with
    | nil => rw [hdrop] at h; exact absurd h (by simp)
    | cons c1 r2 =>
      rw [hdrop] at h
      simp only [Bool.and_eq_true, decide_eq_true_eq] at h
      obtain ⟨⟨hc1, hm2⟩, h⟩ := h
      obtain ⟨c2, r4, hdrop2⟩ | hdrop2 :
          (∃ c2 r4, r2.dropWhile Char.isDigit = c2 :: r4) ∨
            r2.dropWhile Char.isDigit = [] := by
        clear h
        cases r2.dropWhile Char.isDigit with
        | nil => exact Or.inr rfl
        | cons a b => exact Or.inl ⟨a, b, rfl⟩
      swap
      · rw [hdrop2] at h
        exact absurd h (by simp)
      · rw [hdrop2] at h
        simp only [Bool.and_eq_true, decide_eq_true_eq] at h
        obtain ⟨⟨hc2, hd2⟩, hnil⟩ := h
        refine ⟨t.takeWhile Char.isDigit, r2.takeWhile Char.isDigit,
          r4.takeWhile Char.isDigit, ?_,
          fun c hc => List.mem_takeWhile_imp hc, hy4,
          fun c hc => List.mem_takeWhile_imp hc, hm2,
          fun c hc => List.mem_takeWhile_imp hc, hd2⟩
        have ht : t = t.takeWhile Char.isDigit ++ (c1 :: r2) := by
          rw [← hdrop, List.takeWhile_append_dropWhile]
        have hr2 : r2 = r2.takeWhile Char.isDigit ++ (c2 :: r4) := by
          rw [← hdrop2, List.takeWhile_append_dropWhile]
        have hr4 : r4 = r4.takeWhile Char.isDigit := by
          conv_lhs => rw [← List.takeWhile_append_dropWhile Char.isDigit r4]
          rw [hnil, List.append_nil]
        rw [hc1] at ht
        rw [hc2] at hr2
        conv_lhs => rw [ht]
        congr 1
        congr 1
        rw [← hr4]
        exact hr2
  · rintro ⟨y, m, d, rfl, hy, hy4, hm, hm2, hd, hd2⟩
    have hdash : Char.isDigit '-' = false := by decide
    have s1 := splitRun Char.isDigit y '-' (m ++ '-' :: d) hy hdash
    have s2 := splitRun Char.isDigit m '-' d hm hdash
    have s3 := allRun Char.isDigit d hd
    rw [matchISO]
    simp [s1.1, s1.2, s2.1, s2.2, s3.1, s3.2, hy4, hm2, hd2]

/-- C4 counterexample: on the input `" 2024-03-14"` (leading space) the
parser returns the TRIMMED string, whereas the claim — whose three
anchored patterns all fail on the string itself — requires `null`, and
whose passthrough case could only ever return the string unchanged. -/
theorem C4_counterexample :
    parseDate (strL " 2024-03-14") ≠ none ∧
      parseDate (strL " 2024-03-14") ≠ some (strL " 2024-03-14") ∧
      parseDate (strL " 2024-03-14") = some (strL "2024-03-14") := by
  refine ⟨?_, ?_, ?_⟩ <;> decide

/-- C4 amended: `parseDate` first TRIMS its input and applies the three
anchored patterns to the trimmed string: a `DD.MM.YYYY` or `DD/MM/YYYY`
decomposition yields the zero-padded ISO rendering (no calendar
validation), an ISO-shaped trimmed string is returned as the trimmed
string itself, and every other input yields `none`. -/
theorem C4_parseDate (s : Str) :
    (∀ d m y, DMYdecomp '.' (jsTrim s) d m y →
        parseDate s = some (y ++ '-' :: (pad2 m ++ '-' :: pad2 d))) ∧
      (∀ d m y, DMYdecomp '/' (jsTrim s) d m y →
        parseDate s = some (y ++ '-' :: (pad2 m ++ '-' :: pad2 d))) ∧
      (ISOdecomp (jsTrim s) → parseDate s = some (jsTrim s)) ∧
      ((¬ ∃ d m y, DMYdecomp '.' (jsTrim s) d m y) →
        (¬ ∃ d m y, DMYdecomp '/' (jsTrim s) d m y) →
        ¬ ISOdecomp (jsTrim s) → parseDate s = none) := by
  have hdot : Char.isDigit '.' = false := by decide
  have hslash : Char.isDigit '/' = false := by decide
  refine ⟨?_, ?_, ?_, ?_⟩
  · intro d m y hdec
    rw [parseDate, (matchDMY_iff hdot (jsTrim s) d m y).mpr hdec]
  · intro d m y hdec
    have hnodot : matchDMY '.' (jsTrim s) = none := by
      cases hcase : matchDMY '.' (jsTrim s) with
      | none => rfl
      | some g =>
        obtain ⟨d', m', y'⟩ := g
        have := (matchDMY_iff hdot (jsTrim s) d' m' y').mp hcase
        obtain ⟨heq, hd', _, _, hm', _, _, hy', _⟩ := this
        obtain ⟨heq2, hd2, _, _, hm2, _, _, hy2, _⟩ := hdec
        have : '/' ∈ jsTrim s := by
          rw [heq2]
          exact List.mem_append.mpr (Or.inr (List.mem_cons_self _ _))
        rw [heq] at this
        rcases List.mem_append.mp this with hin | hin
        · have := hd' _ hin
          exact absurd this (by decide)
        · rcases List.mem_cons.mp hin with h | hin
          · exact absurd h (by decide)
          · rcases List.mem_append.mp hin with hin | hin
            · have := hm' _ hin
              exact absurd this (by decide)
            · rcases List.mem_cons.mp hin with h | hin
              · exact absurd h (by decide)
              · have := hy' _ hin
                exact absurd this (by decide)
    rw [parseDate, hnodot, (matchDMY_iff hslash (jsTrim s) d m y).mpr hdec]
  · intro hiso
    have hnodot : matchDMY '.' (jsTrim s) = none := by
      cases hcase : matchDMY '.' (jsTrim s) with
      | none => rfl
      | some g =>
        obtain ⟨d', m', y'⟩ := g
        obtain ⟨heq, hd', _, _, hm', _, _, hy', _⟩ :=
          (matchDMY_iff hdot (jsTrim s) d' m' y').mp hcase
        obtain ⟨y, m, d, heq2, hy, _, hm, _, hd, _⟩ := hiso
        have : '.' ∈ jsTrim s := by
          rw [heq]
          exact List.mem_append.mpr (Or.inr (List.mem_cons_self _ _))
        rw [heq2] at this
        rcases List.mem_append.mp this with hin | hin
        · exact absurd (hy _ hin) (by decide)
        · rcases List.mem_cons.mp hin with h | hin
          · exact absurd h (by decide)
          · rcases List.mem_append.mp hin with hin | hin
            · exact absurd (hm _ hin) (by decide)
            · rcases List.mem_cons.mp hin with h | hin
              · exact absurd h (by decide)
              · exact absurd (hd _ hin) (by decide)
    have hnoslash : matchDMY '/' (jsTrim s) = none := by
      cases hcase : matchDMY '/' (jsTrim s) with
      | none => rfl
      | some g =>
        obtain ⟨d', m', y'⟩ := g
        obtain ⟨heq, hd', _, _, hm', _, _, hy', _⟩ :=
          (matchDMY_iff hslash (jsTrim s) d' m' y').mp hcase
        obtain ⟨y, m, d, heq2, hy, _, hm, _, hd, _⟩ := hiso
        have : '/' ∈ jsTrim s := by
          rw [heq]
          exact List.mem_append.mpr (Or.inr (List.mem_cons_self _ _))
        rw [heq2] at this
        rcases List.mem_append.mp this with hin | hin
        · exact absurd (hy _ hin) (by decide)
        · rcases List.mem_cons.mp hin with h | hin
          · exact absurd h (by decide)
          · rcases List.mem_append.mp hin with hin | hin
            · exact absurd (hm _ hin) (by decide)
            · rcases List.mem_cons.mp hin with h | hin
              · exact absurd h (by decide)
              · exact absurd (hd _ hin) (by decide)
    rw [parseDate, hnodot, hnoslash, if_pos ((matchISO_iff _).mpr hiso)]
  · intro hno1 hno2 hno3
    have hnodot : matchDMY '.' (jsTrim s) = none := by
      cases hcase : matchDMY '.' (jsTrim s) with
      | none => rfl
      | some g =>
        obtain ⟨d', m', y'⟩ := g
        exact absurd ⟨d', m', y', (matchDMY_iff hdot _ _ _ _).mp hcase⟩ hno1
    have hnoslash : matchDMY '/' (jsTrim s) = none := by
      cases hcase : matchDMY '/' (jsTrim s) with
      | none => rfl
      | some g =>
        obtain ⟨d', m', y'⟩ := g
        exact absurd ⟨d', m', y', (matchDMY_iff hslash _ _ _ _).mp hcase⟩ hno2
    have hnoiso : matchISO (jsTrim s) = false := by
      cases hcase : matchISO (jsTrim s) with
      | false => rfl
      | true => exact absurd ((matchISO_iff _).mp hcase) hno3
    rw [parseDate, hnodot, hnoslash, hnoiso]
    rfl

/-- Witness for C4 at the claim's own example `"31.02.2024"` (no calendar
validation). -/
theorem C4_parseDate_witness :
    DMYdecomp '.' (jsTrim (strL "31.02.2024"))
        (strL "31") (strL "02") (strL "2024") ∧
      parseDate (strL "31.02.2024") = some (strL "2024-02-31") := by
  refine ⟨by decide, ?_⟩
  have h := (C4_parseDate (strL "31.02.2024")).1
    (strL "31") (strL "02") (strL "2024") (by decide)
  rw [h]
  decide

/-! ## C6: `getPrefixTerms` returns the first `limit` matches -/

/-- Appending a non-empty tail moves a string strictly up in the
lexicographic order. -/
theorem lt_append_of_ne_nil : ∀ (p u : Str), u ≠ [] → p < p ++ u := by
  intro p
  induction p with
  | nil =>
    intro u hu
    cases u with
    | nil => exact absurd rfl hu
    | cons c l => exact List.nil_lt_cons c l
  | cons a p' ih =>
    intro u hu
    exact List.Lex.cons (ih u hu)

/-- A prefix of `t` is at most `t`. -/
theorem le_of_isPrefix {p t : Str} (h : p <+: t) : p ≤ t := by
  obtain ⟨u, rfl⟩ := h
  cases u with
  | nil => simp
  | cons c l => exact le_of_lt (lt_append_of_ne_nil p (c :: l) (by simp))

/-- A string that is at least `p` but does not start with `p` is strictly
above every string that does start with `p`. -/
theorem lt_of_prefix_lt {p : Str} :
    ∀ {s : Str}, p ≤ s → ¬ p <+: s → ∀ {u : Str}, p <+: u → u < s := by
  induction p with
  | nil =>
    intro s _ hnp
    exact absurd (List.nil_prefix) hnp
  | cons a p' ih =>
    intro s hle hnp u hu
    cases s with
    | nil =>
      exact absurd (lt_of_lt_of_le (List.nil_lt_cons a p') hle) (lt_irrefl _)
    | cons b s' =>
      obtain ⟨w, rfl⟩ := hu
      rcases lt_trichotomy a b with hab | rfl | hab
      · exact List.Lex.rel hab
      · have hle' : p' ≤ s' := by
          rw [← not_lt] at hle ⊢
          intro hlt
          exact hle (List.Lex.cons hlt)
        have hnp' : ¬ p' <+: s' := fun hp =>
          hnp (List.cons_prefix_cons.mpr ⟨rfl, hp⟩)
        have := ih hle' hnp' (List.prefix_append p' w)
        exact List.Lex.cons this
      · exact absurd (List.Lex.rel hab : (b :: s') < (a :: p'))
          (not_lt.mpr hle)

/-- Correctness of the binary-search loop: with enough fuel and a sorted
array, it converges to the boundary between the terms `< pfx` and the
terms `≥ pfx`. -/
theorem lowerBound_spec (terms : List Str) (pfx : Str)
    (hsorted : terms.Pairwise (· ≤ ·)) :
    ∀ (fuel lo hi : Nat), hi ≤ terms.length → lo ≤ hi → hi - lo ≤ fuel →
      (∀ j, j < lo → j < terms.length → terms.getD j [] < pfx) →
      (∀ j, hi ≤ j → j < terms.length → ¬ terms.getD j [] < pfx) →
      lo ≤ lowerBound terms pfx fuel lo hi ∧
        lowerBound terms pfx fuel lo hi ≤ hi ∧
        (∀ j, j < lowerBound terms pfx fuel lo hi → j < terms.length →
          terms.getD j [] < pfx) ∧
        (∀ j, lowerBound terms pfx fuel lo hi ≤ j → j < terms.length →
          ¬ terms.getD j [] < pfx) := by
  intro fuel
  induction fuel with
  | zero =>
    intro lo hi hhi hlohi hfuel hbelow habove
    have : lo = hi := by omega
    subst this
    exact ⟨le_refl _, le_refl _, hbelow, habove⟩
  | succ fuel ih =>
    intro lo hi hhi hlohi hfuel hbelow habove
    rw [lowerBound]
    by_cases hlt : lo < hi
    swap
    · rw [if_neg hlt]
      have : lo = hi := by omega
      subst this
      exact ⟨le_refl _, le_refl _, hbelow, habove⟩
    rw [if_pos hlt]
    have hmidlo : lo ≤ (lo + hi) / 2 := by omega
    have hmidhi : (lo + hi) / 2 < hi := by omega
    by_cases hcmp : terms.getD ((lo + hi) / 2) [] < pfx
    · rw [if_pos hcmp]
      have hbelow' : ∀ j, j < (lo + hi) / 2 + 1 → j < terms.length →
          terms.getD j [] < pfx := by
        intro j hj hjlen
        by_cases hjlo : j < lo
        · exact hbelow j hjlo hjlen
        · have hmlen : (lo + hi) / 2 < terms.length := by omega
          by_cases hjm : j = (lo + hi) / 2
          · subst hjm; exact hcmp
          · have hjm' : j < (lo + hi) / 2 := by omega
            have hle := List.pairwise_iff_getElem.mp hsorted j ((lo + hi) / 2)
              hjlen hmlen hjm'
            rw [List.getD_eq_getElem terms [] hjlen,
              List.getD_eq_getElem terms [] hmlen] at *
            exact lt_of_le_of_lt hle hcmp
      have := ih ((lo + hi) / 2 + 1) hi hhi (by omega) (by omega) hbelow' habove
      exact ⟨le_trans (by omega) this.1, this.2.1, this.2.2.1, this.2.2.2⟩
    · rw [if_neg hcmp]
      have habove' : ∀ j, (lo + hi) / 2 ≤ j → j < terms.length →
          ¬ terms.getD j [] < pfx := by
        intro j hj hjlen
        have hmlen : (lo + hi) / 2 < terms.length := by omega
        by_cases hjm : j = (lo + hi) / 2
        · subst hjm; exact hcmp
        · have hjm' : (lo + hi) / 2 < j := by omega
          have hle := List.pairwise_iff_getElem.mp hsorted ((lo + hi) / 2) j
            hmlen hjlen hjm'
          rw [List.getD_eq_getElem terms [] hjlen,
            List.getD_eq_getElem terms [] hmlen] at *
          intro hjlt
          exact hcmp (lt_of_le_of_lt hle hjlt)
      have := ih lo ((lo + hi) / 2) (by omega) (by omega) (by omega)
        hbelow habove'
      exact ⟨this.1, le_trans this.2.1 (by omega), this.2.2.1, this.2.2.2⟩

/-- The collection loop takes at most `limit − k` leading matches. -/
theorem collectLoop_eq (pfx : Str) (limit : Nat) :
    ∀ (ts : List Str) (k : Nat),
      collectLoop pfx limit ts k
        = (ts.takeWhile (fun t => pfx.isPrefixOf t)).take (limit - k) := by
  intro ts
  induction ts with
  | nil => intro k; simp [collectLoop]
  | cons t ts ih =>
    intro k
    rw [collectLoop, List.takeWhile_cons]
    by_cases hk : k < limit
    · rw [if_pos hk]
      by_cases hp : pfx.isPrefixOf t
      · rw [if_pos hp, if_pos hp, ih (k + 1)]
        have : limit - k = (limit - (k + 1)) + 1 := by omega
        rw [this, List.take_succ_cons]
      · rw [if_neg hp, if_neg hp, List.take_nil]
    · rw [if_neg hk]
      have : limit - k = 0 := by omega
      rw [this, List.take_zero]

/-- On a sorted list all of whose elements are `≥ pfx`, the leading run
of prefix matches is all of them. -/
theorem takeWhile_isPrefixOf_eq_filter (pfx : Str) :
    ∀ ts : List Str, ts.Pairwise (· ≤ ·) → (∀ t ∈ ts, pfx ≤ t) →
      ts.takeWhile (fun t => pfx.isPrefixOf t)
        = ts.filter (fun t => pfx.isPrefixOf t) := by
  intro ts
  induction ts with
  | nil => intro _ _; rfl
  | cons a ts ih =>
    intro hsorted hge
    rw [List.takeWhile_cons, List.filter_cons]
    by_cases hp : pfx.isPrefixOf a
    · rw [if_pos hp, if_pos hp,
        ih (List.Pairwise.sublist (List.sublist_cons_self a ts) hsorted)
          (fun t ht => hge t (List.mem_cons_of_mem _ ht))]
    · rw [if_neg (by simpa using hp)]
      have hnone : ts.filter (fun t => pfx.isPrefixOf t) = [] := by
        rw [List.filter_eq_nil_iff]
        intro t ht hpt
        have h1 := hge a (List.mem_cons_self _ _)
        have h2 : ¬ pfx <+: a := fun hpa => hp (List.isPrefixOf_iff_prefix.mpr hpa)
        have h3 := lt_of_prefix_lt h1 h2 (List.isPrefixOf_iff_prefix.mp hpt)
        have h4 : a ≤ t := (List.pairwise_cons.mp hsorted).1 t ht
        exact absurd h3 (not_lt.mpr h4)
      rw [hnone, if_neg hp]

/-- C6: on a sorted vocabulary, `getPrefixTerms` returns exactly the
first `min(limit, k)` vocabulary terms starting with the prefix, in
ascending order (`k` being the number of such terms); it returns the
empty list on an empty vocabulary, on an empty prefix, and when the
limit is 0 (so `maxPrefixExpansion = 0` disables prefix expansion). -/
theorem C6_prefix_terms (idx : InvertedIndex) (f : Field) (pfx : Str) (L : Nat)
    (hsorted : (sortedTermsOf idx f).Pairwise (· ≤ ·)) :
    (pfx ≠ [] → getPrefixTerms idx pfx f L
        = ((sortedTermsOf idx f).filter (fun t => pfx.isPrefixOf t)).take L) ∧
      (pfx ≠ [] → (getPrefixTerms idx pfx f L).length
        = min L ((sortedTermsOf idx f).filter (fun t => pfx.isPrefixOf t)).length) ∧
      getPrefixTerms idx [] f L = [] ∧
      (sortedTermsOf idx f = [] → getPrefixTerms idx pfx f L = []) ∧
      getPrefixTerms idx pfx f 0 = [] := by
  have main : ∀ L' : Nat, pfx ≠ [] → getPrefixTerms idx pfx f L'
      = ((sortedTermsOf idx f).filter (fun t => pfx.isPrefixOf t)).take L' := by
    intro L' hpfx
    rw [getPrefixTerms]
    by_cases hv : (sortedTermsOf idx f).length = 0
    · rw [if_pos (Or.inl hv)]
      rw [List.length_eq_zero.mp hv]
      simp
    · rw [if_neg (by
        rintro (h | h)
        · exact hv h
        · exact hpfx h)]
      have spec := lowerBound_spec (sortedTermsOf idx f) pfx hsorted
        (sortedTermsOf idx f).length 0 (sortedTermsOf idx f).length
        le_rfl (by omega) (by omega)
        (by intro j hj _; omega)
        (by intro j hj hjlen; omega)
      set r := lowerBound (sortedTermsOf idx f) pfx
        (sortedTermsOf idx f).length 0 (sortedTermsOf idx f).length with hr
      rw [collectLoop_eq, Nat.sub_zero]
      have hdropSorted : ((sortedTermsOf idx f).drop r).Pairwise (· ≤ ·) :=
        List.Pairwise.sublist (List.drop_sublist r _) hsorted
      have hdropGe : ∀ t ∈ (sortedTermsOf idx f).drop r, pfx ≤ t := by
        intro t ht
        obtain ⟨i, hi, rfl⟩ := List.mem_iff_getElem.mp ht
        have hlen : r + i < (sortedTermsOf idx f).length := by
          rw [List.length_drop] at hi
          omega
        have := spec.2.2.2 (r + i) (by omega) hlen
        rw [List.getD_eq_getElem _ [] hlen] at this
        rw [List.getElem_drop]
        exact not_lt.mp this
      rw [takeWhile_isPrefixOf_eq_filter pfx _ hdropSorted hdropGe]
      have hsplit : (sortedTermsOf idx f).filter (fun t => pfx.isPrefixOf t)
          = ((sortedTermsOf idx f).take r).filter (fun t => pfx.isPrefixOf t)
            ++ ((sortedTermsOf idx f).drop r).filter (fun t => pfx.isPrefixOf t) := by
        rw [← List.filter_append, List.take_append_drop]
      have htake : ((sortedTermsOf idx f).take r).filter
          (fun t => pfx.isPrefixOf t) = [] := by
        rw [List.filter_eq_nil_iff]
        intro t ht hPt
        obtain ⟨i, hi, rfl⟩ := List.mem_iff_getElem.mp ht
        have hir : i < r ∧ i < (sortedTermsOf idx f).length := by
          rw [List.length_take] at hi
          omega
        have hlt := spec.2.2.1 i hir.1 hir.2
        rw [List.getD_eq_getElem _ [] hir.2] at hlt
        have hle := le_of_isPrefix (List.isPrefixOf_iff_prefix.mp hPt)
        rw [List.getElem_take] at hle
        exact absurd hlt (not_lt.mpr hle)
      rw [hsplit, htake, List.nil_append]
  refine ⟨main L, ?_, ?_, ?_, ?_⟩
  · intro hpfx
    rw [main L hpfx, List.length_take]
  · rw [getPrefixTerms]
    rw [if_pos (Or.inr rfl)]
  · intro hv
    rw [getPrefixTerms, if_pos (Or.inl (by rw [hv]; rfl))]
  · by_cases hpfx : pfx = []
    · subst hpfx
      rw [getPrefixTerms, if_pos (Or.inr rfl)]
    · rw [main 0 hpfx, List.take_zero]

/-- Witness for C6: the prefix `"ber"` over the sample vocabulary. -/
theorem C6_prefix_terms_witness :
    (sortedTermsOf idxSample .suchtext).Pairwise (· ≤ ·) ∧
      getPrefixTerms idxSample (strL "ber") .suchtext 50
        = ((sortedTermsOf idxSample .suchtext).filter
            (fun t => (strL "ber").isPrefixOf t)).take 50 ∧
      getPrefixTerms idxSample (strL "ber") .suchtext 50 = [strL "berlin"] := by
  refine ⟨by decide, ?_, by decide⟩
  exact (C6_prefix_terms idxSample .suchtext (strL "ber") 50 (by decide)).1
    (by decide)

/-! ## C2: stopword-only queries versus the empty query -/

/-- C2 counterexample: with no explicit sort, a stopword-only query goes
through the search path (`q.trim()` is truthy), so the route does NOT
apply the default date-descending sort it applies to the empty query;
on a corpus whose document-id order differs from date order the two
outputs differ. -/
theorem C2_counterexample :
    routeResults (strL "der") none none none [] none lgId idxJanFirst []
        = [⟨itemJan, 0, []⟩, ⟨itemMarch, 0, []⟩] ∧
      routeResults (strL "") none none none [] none lgId idxJanFirst []
        = [⟨itemMarch, 0, []⟩, ⟨itemJan, 0, []⟩] ∧
      routeResults (strL "der") none none none [] none lgId idxJanFirst []
        ≠ routeResults (strL "") none none none [] none lgId idxJanFirst [] := by
  refine ⟨?_, ?_, ?_⟩ <;> decide

/-- The browse-mode search results, mapped into the route's shape, are
the documents with score 0 in document-id order. -/
theorem browse_map_eq (lg : Rat → Rat) (q : Str) (idx : InvertedIndex)
    (cfg : SearchConfig) (c : IdfCache) (h : tokenize q = []) :
    ((search lg q idx cfg c).1).map
        (fun r => (⟨r.item, r.score, r.matchedTerms⟩ : RouteItem))
      = idx.documents.map (fun it => ⟨it, 0, []⟩) := by
  rw [search_browse lg q idx cfg c h, List.map_map]
  have : ((fun r : SearchResult => (⟨r.item, r.score, r.matchedTerms⟩ : RouteItem))
      ∘ fun p : Nat × ProcessedMediaItem => (⟨p.1, p.2, 0, []⟩ : SearchResult))
      = (fun it : ProcessedMediaItem => (⟨it, 0, []⟩ : RouteItem)) ∘ Prod.snd := rfl
  rw [this, ← List.map_map, List.enum_map_snd]

/-- C2 amended: a stopword-only query (non-blank but tokenizing to
nothing) produces, through search and the filters, the same records with
score 0 as the empty query; with an explicit sort the route outputs are
identical; without one, the empty query's output is the date-descending
re-sort of the stopword query's output, which stays in document-id
order. -/
theorem C2_stopword_query (lg : Rat → Rat) (idx : InvertedIndex)
    (c : IdfCache) (q : Str) (credit dFrom dTo : Option Str) (rs : List Str)
    (h1 : tokenize q = []) (h2 : jsTrim q ≠ []) :
    (routeResults q credit dFrom dTo rs none lg idx c
        = applyFilters (idx.documents.map (fun it => ⟨it, 0, []⟩))
            credit dFrom dTo rs) ∧
      (∀ o, routeResults q credit dFrom dTo rs (some o) lg idx c
        = routeResults [] credit dFrom dTo rs (some o) lg idx c) ∧
      (routeResults [] credit dFrom dTo rs none lg idx c
        = sortByDate (routeResults q credit dFrom dTo rs none lg idx c) .desc) := by
  have htrim : (jsTrim q).isEmpty = false := by
    cases hq : jsTrim q with
    | nil => exact absurd hq h2
    | cons a l => rfl
  have hmap := browse_map_eq lg q idx DEFAULT_SEARCH_CONFIG c h1
  have hq : routeResults q credit dFrom dTo rs none lg idx c
      = applyFilters (idx.documents.map (fun it => ⟨it, 0, []⟩))
          credit dFrom dTo rs := by
    rw [routeResults]
    rw [htrim]
    simp only [Bool.not_false, if_true, hmap, Bool.false_eq_true, if_false]
  refine ⟨hq, ?_, ?_⟩
  · intro o
    rw [routeResults, routeResults]
    rw [htrim]
    simp only [Bool.not_false, if_true, hmap]
    rfl
  · rw [routeResults, hq]
    rfl

/-- Witness for C2 (amended) at the stopword query `"der"`. -/
theorem C2_stopword_query_witness :
    tokenize (strL "der") = [] ∧ jsTrim (strL "der") ≠ [] ∧
      routeResults (strL "der") none none none [] none lgId idxJanFirst []
        = applyFilters (idxJanFirst.documents.map (fun it => ⟨it, 0, []⟩))
            none none none [] := by
  refine ⟨by decide, by decide, ?_⟩
  exact (C2_stopword_query lgId idxJanFirst [] (strL "der")
    none none none [] (by decide) (by decide)).1

/-! ## C9: search is deterministic across cache histories -/

/-- Lookup after update at the same key. -/
theorem alGet_alSet_self {κ ν : Type} [DecidableEq κ] (k : κ) (v : ν) :
    ∀ m : List (κ × ν), alGet k (alSet k v m) = some v := by
  intro m
  induction m with
  | nil => simp [alGet, alSet]
  | cons p rest ih =>
    obtain ⟨pk, pv⟩ := p
    rw [alSet]
    by_cases hk : pk = k
    · rw [if_pos hk, alGet, if_pos rfl]
    · rw [if_neg hk, alGet, if_neg hk, ih]

/-- Lookup after update at a different key. -/
theorem alGet_alSet_ne {κ ν : Type} [DecidableEq κ] {k k' : κ} (v : ν)
    (hne : k' ≠ k) : ∀ m : List (κ × ν), alGet k' (alSet k v m) = alGet k' m := by
  intro m
  induction m with
  | nil =>
    simp [alSet, alGet, Ne.symm hne]
  | cons p rest ih =>
    obtain ⟨pk, pv⟩ := p
    rw [alSet]
    by_cases hk : pk = k
    · subst hk
      rw [if_pos rfl, alGet, alGet, if_neg (fun h => hne h.symm),
        if_neg (fun h => hne h.symm)]
    · rw [if_neg hk, alGet, alGet, ih]

/-- Lookup distributes over append. -/
theorem alGet_append {κ ν : Type} [DecidableEq κ] (k : κ) :
    ∀ m m2 : List (κ × ν), alGet k (m ++ m2)
      = match alGet k m with
        | some v => some v
        | none => alGet k m2 := by
  intro m m2
  induction m with
  | nil => simp [alGet]
  | cons p rest ih =>
    obtain ⟨pk, pv⟩ := p
    rw [List.cons_append, alGet, alGet]
    by_cases hk : pk = k
    · rw [if_pos hk, if_pos hk]
    · rw [if_neg hk, if_neg hk, ih]

theorem alGet_single_self {κ ν : Type} [DecidableEq κ] (k : κ) (v : ν) :
    alGet k [(k, v)] = some v := by
  rw [alGet, if_pos rfl]

theorem alGet_single_ne {κ ν : Type} [DecidableEq κ] {k k' : κ} (v : ν)
    (h : k' ≠ k) : alGet k' [(k, v)] = none := by
  rw [alGet, if_neg (Ne.symm h), alGet]

theorem cacheLookup_insert (c : IdfCache) (f : Field) (t : Str) (v : Rat)
    (f' : Field) (t' : Str) :
    cacheLookup (cacheInsert c f t v) f' t'
      = if f' = f ∧ t' = t then some v else cacheLookup c f' t' := by
  rw [cacheInsert]
  by_cases hf : f' = f
  · subst hf
    cases hfc : alGet f' c with
    | some fc =>
      rw [cacheLookup, alGet_alSet_self, Option.some_bind]
      by_cases ht : t' = t
      · subst ht
        rw [alGet_alSet_self, if_pos ⟨rfl, rfl⟩]
      · rw [alGet_alSet_ne _ ht, if_neg (fun h => ht h.2), cacheLookup, hfc,
          Option.some_bind]
    | none =>
      rw [cacheLookup, alGet_append, hfc]
      by_cases ht : t' = t
      · subst ht
        rw [if_pos ⟨rfl, rfl⟩]
        simp only [alGet_single_self, Option.some_bind]
      · rw [if_neg (fun h => ht h.2), cacheLookup, hfc]
        simp only [alGet_single_self, Option.some_bind, alGet_single_ne _ ht]
        rfl
  · rw [if_neg (fun h => hf h.1)]
    cases hfc : alGet f c with
    | some fc =>
      rw [cacheLookup, alGet_alSet_ne _ hf, cacheLookup]
    | none =>
      rw [cacheLookup, alGet_append, cacheLookup]
      cases hfc2 : alGet f' c with
      | some fc2 => rfl
      | none =>
        rw [alGet_single_ne _ hf]

theorem getIDF_wf {lg : Rat → Rat} {idx : InvertedIndex} {c : IdfCache}
    (hwf : WfCache lg idx c) (t : Str) (f : Field) :
    (getIDF lg t f (getFieldIndex idx f) c).1 = idfOf lg (getFieldIndex idx f) t ∧
      WfCache lg idx (getIDF lg t f (getFieldIndex idx f) c).2 := by
  rw [getIDF]
  cases hl : cacheLookup c f t with
  | some v =>
    exact ⟨hwf f t v hl, hwf⟩
  | none =>
    refine ⟨rfl, ?_⟩
    intro f' t' v' hv'
    rw [cacheLookup_insert] at hv'
    by_cases h : f' = f ∧ t' = t
    · rw [if_pos h] at hv'
      obtain ⟨rfl, rfl⟩ := h
      obtain rfl := Option.some.inj hv'
      rfl
    · rw [if_neg h] at hv'
      exact hwf f' t' v' hv'

theorem scoreTermInField_wf {lg : Rat → Rat} {idx : InvertedIndex}
    {c1 c2 : IdfCache} (h1 : WfCache lg idx c1) (h2 : WfCache lg idx c2)
    (term : Str) (f : Field) (ds : DocScores) (cfg : SearchConfig) (ip : Bool) :
    (scoreTermInField lg term f idx ds cfg ip c1).1
        = (scoreTermInField lg term f idx ds cfg ip c2).1 ∧
      WfCache lg idx (scoreTermInField lg term f idx ds cfg ip c1).2 := by
  rw [scoreTermInField, scoreTermInField]
  cases hp : alGet term (getFieldIndex idx f).termPostings with
  | none => exact ⟨rfl, h1⟩
  | some ps =>
    simp only []
    by_cases hz : ps.length = 0
    · rw [if_pos hz, if_pos hz]
      exact ⟨rfl, h1⟩
    · rw [if_neg hz, if_neg hz]
      have g1 := getIDF_wf h1 term f
      have g2 := getIDF_wf h2 term f
      refine ⟨?_, ?_⟩
      · simp only []
        rw [g1.1, g2.1]
      · simp only []
        exact g1.2

theorem indep_comp {lg : Rat → Rat} {idx : InvertedIndex}
    {g h : (DocScores × IdfCache) → (DocScores × IdfCache)}
    (hg : CacheIndep lg idx g) (hh : CacheIndep lg idx h) :
    CacheIndep lg idx (fun st => h (g st)) := by
  intro ds c1 c2 w1 w2
  have hg12 := hg ds c1 c2 w1 w2
  have hg22 := hg ds c2 c2 w2 w2
  rcases hgc1 : g (ds, c1) with ⟨ds1, k1⟩
  rcases hgc2 : g (ds, c2) with ⟨ds2, k2⟩
  have hds : ds1 = ds2 := by
    have := hg12.1
    rw [hgc1, hgc2] at this
    exact this
  have wk1 : WfCache lg idx k1 := by
    have := hg12.2
    rw [hgc1] at this
    exact this
  have wk2 : WfCache lg idx k2 := by
    have := hg22.2
    rw [hgc2] at this
    exact this
  subst hds
  have hgoal := hh ds1 k1 k2 wk1 wk2
  simp only []
  rw [hgc1, hgc2]
  exact hgoal

theorem indep_foldl {lg : Rat → Rat} {idx : InvertedIndex} {β : Type}
    (step : (DocScores × IdfCache) → β → (DocScores × IdfCache))
    (hstep : ∀ b, CacheIndep lg idx (fun st => step st b)) :
    ∀ l : List β, CacheIndep lg idx (fun st => l.foldl step st) := by
  intro l
  induction l with
  | nil => intro ds c1 c2 w1 w2; exact ⟨rfl, w1⟩
  | cons b l ih => exact indep_comp (hstep b) ih

theorem scoreTermInField_indep {lg : Rat → Rat} {idx : InvertedIndex}
    (term : Str) (f : Field) (cfg : SearchConfig) (ip : Bool) :
    CacheIndep lg idx
      (fun st => scoreTermInField lg term f idx st.1 cfg ip st.2) := by
  intro ds c1 c2 w1 w2
  exact scoreTermInField_wf w1 w2 term f ds cfg ip

theorem expansion_step_indep {lg : Rat → Rat} {idx : InvertedIndex}
    (term : Str) (f : Field) (cfg : SearchConfig) (pt : Str) :
    CacheIndep lg idx (fun st =>
      if pt = term then st
      else scoreTermInField lg pt f idx st.1 cfg true st.2) := by
  by_cases hb : pt = term
  · intro ds c1 c2 w1 w2
    simp only [if_pos hb]
    exact ⟨by trivial, w1⟩
  · intro ds c1 c2 w1 w2
    simp only [if_neg hb]
    exact scoreTermInField_wf w1 w2 pt f ds cfg true

theorem processTerm_indep {lg : Rat → Rat} {idx : InvertedIndex}
    (cfg : SearchConfig) (term : Str) :
    CacheIndep lg idx (fun st => processTerm lg idx cfg st term) := by
  have base : CacheIndep lg idx (fun st =>
      scoreTermInField lg term .bildnummer idx
        (scoreTermInField lg term .fotografen idx
          (scoreTermInField lg term .suchtext idx st.1 cfg false st.2).1 cfg false
          (scoreTermInField lg term .suchtext idx st.1 cfg false st.2).2).1 cfg false
        (scoreTermInField lg term .fotografen idx
          (scoreTermInField lg term .suchtext idx st.1 cfg false st.2).1 cfg false
          (scoreTermInField lg term .suchtext idx st.1 cfg false st.2).2).2) :=
    indep_comp (indep_comp (scoreTermInField_indep term .suchtext cfg false)
      (scoreTermInField_indep term .fotografen cfg false))
      (scoreTermInField_indep term .bildnummer cfg false)
  by_cases hmin : cfg.minPrefixLength ≤ term.length
  · have he : (fun st => processTerm lg idx cfg st term)
        = (fun st => (getPrefixTerms idx term .bildnummer cfg.maxPrefixExpansion).foldl
            (fun st pt => if pt = term then st
              else scoreTermInField lg pt .bildnummer idx st.1 cfg true st.2)
            ((getPrefixTerms idx term .fotografen cfg.maxPrefixExpansion).foldl
              (fun st pt => if pt = term then st
                else scoreTermInField lg pt .fotografen idx st.1 cfg true st.2)
              ((getPrefixTerms idx term .suchtext cfg.maxPrefixExpansion).foldl
                (fun st pt => if pt = term then st
                  else scoreTermInField lg pt .suchtext idx st.1 cfg true st.2)
                (scoreTermInField lg term .bildnummer idx
                  (scoreTermInField lg term .fotografen idx
                    (scoreTermInField lg term .suchtext idx st.1 cfg false st.2).1
                    cfg false
                    (scoreTermInField lg term .suchtext idx st.1 cfg false st.2).2).1
                  cfg false
                  (scoreTermInField lg term .fotografen idx
                    (scoreTermInField lg term .suchtext idx st.1 cfg false st.2).1
                    cfg false
                    (scoreTermInField lg term .suchtext idx st.1 cfg false st.2).2).2)))) := by
      funext st
      rw [processTerm, if_pos hmin]
    rw [he]
    exact indep_comp (indep_comp (indep_comp base
      (indep_foldl _ (expansion_step_indep term .suchtext cfg)
        (getPrefixTerms idx term .suchtext cfg.maxPrefixExpansion)))
      (indep_foldl _ (expansion_step_indep term .fotografen cfg)
        (getPrefixTerms idx term .fotografen cfg.maxPrefixExpansion)))
      (indep_foldl _ (expansion_step_indep term .bildnummer cfg)
        (getPrefixTerms idx term .bildnummer cfg.maxPrefixExpansion))
  · have he : (fun st => processTerm lg idx cfg st term)
        = (fun st =>
            scoreTermInField lg term .bildnummer idx
              (scoreTermInField lg term .fotografen idx
                (scoreTermInField lg term .suchtext idx st.1 cfg false st.2).1
                cfg false
                (scoreTermInField lg term .suchtext idx st.1 cfg false st.2).2).1
              cfg false
              (scoreTermInField lg term .fotografen idx
                (scoreTermInField lg term .suchtext idx st.1 cfg false st.2).1
                cfg false
                (scoreTermInField lg term .suchtext idx st.1 cfg false st.2).2).2) := by
      funext st
      rw [processTerm, if_neg hmin]
    rw [he]
    exact base

theorem wfCache_nil (lg : Rat → Rat) (idx : InvertedIndex) :
    WfCache lg idx [] := by
  intro f t v h
  rw [cacheLookup, alGet] at h
  exact absurd h (by simp)

theorem search_wf {lg : Rat → Rat} {idx : InvertedIndex} (q : Str)
    (cfg : SearchConfig) {c1 c2 : IdfCache}
    (w1 : WfCache lg idx c1) (w2 : WfCache lg idx c2) :
    (search lg q idx cfg c1).1 = (search lg q idx cfg c2).1 ∧
      WfCache lg idx (search lg q idx cfg c1).2 := by
  rw [search, search]
  by_cases hq : tokenize q = []
  · rw [if_pos hq, if_pos hq]
    exact ⟨rfl, w1⟩
  · rw [if_neg hq, if_neg hq]
    have hfold := indep_foldl (processTerm lg idx cfg)
      (fun b => processTerm_indep cfg b) (tokenize q) [] c1 c2 w1 w2
    simp only [] at hfold ⊢
    rw [hfold.1]
    exact ⟨rfl, hfold.2⟩

theorem runQueries_wf (lg : Rat → Rat) (idx : InvertedIndex)
    (qs : List (Str × SearchConfig)) :
    WfCache lg idx (runQueries lg idx qs []) := by
  have key : ∀ (qs : List (Str × SearchConfig)) (c : IdfCache),
      WfCache lg idx c → WfCache lg idx (runQueries lg idx qs c) := by
    intro qs
    induction qs with
    | nil => intro c h; exact h
    | cons p qs ih =>
      intro c h
      rw [runQueries, List.foldl_cons]
      exact ih _ (search_wf p.1 p.2 h h).2
  exact key qs [] (wfCache_nil lg idx)

/-- C9: `search` is deterministic — two calls with the same index state,
query string and configuration return identical result sequences
regardless of which other queries were executed before each call (the
module-level IDF cache, threaded explicitly here, never changes the
output because every value it can hold is the one the frozen index
determines). -/
theorem C9_search_deterministic (lg : Rat → Rat) (idx : InvertedIndex) (q : Str)
    (cfg : SearchConfig) (qs1 qs2 : List (Str × SearchConfig)) :
    (search lg q idx cfg (runQueries lg idx qs1 [])).1
      = (search lg q idx cfg (runQueries lg idx qs2 [])).1 :=
  (search_wf q cfg (runQueries_wf lg idx qs1) (runQueries_wf lg idx qs2)).1


/-! ## C10: `matchedTerms` is exactly the scored-and-hit term set -/

theorem alGet_eq_none_iff {κ ν : Type} [DecidableEq κ] (k : κ) :
    ∀ m : List (κ × ν), alGet k m = none ↔ k ∉ m.map Prod.fst := by
  intro m
  induction m with
  | nil => simp [alGet]
  | cons p rest ih =>
    obtain ⟨pk, pv⟩ := p
    rw [alGet]
    by_cases hk : pk = k
    · subst hk
      simp
    · rw [if_neg hk]
      simp only [List.map_cons, List.mem_cons]
      rw [ih]
      constructor
      · intro h hmem
        rcases hmem with h1 | h1
        · exact hk h1.symm
        · exact h h1
      · intro h h1
        exact h (Or.inr h1)

theorem alGet_some_mem_keys {κ ν : Type} [DecidableEq κ] {k : κ} {v : ν} :
    ∀ {m : List (κ × ν)}, alGet k m = some v → k ∈ m.map Prod.fst := by
  intro m h
  by_contra hk
  rw [← alGet_eq_none_iff] at hk
  rw [hk] at h
  exact absurd h (by simp)

theorem alSet_keys_of_mem {κ ν : Type} [DecidableEq κ] {k : κ} (v : ν) :
    ∀ {m : List (κ × ν)} {w : ν}, alGet k m = some w →
      (alSet k v m).map Prod.fst = m.map Prod.fst := by
  intro m
  induction m with
  | nil => intro w h; exact absurd h (by simp [alGet])
  | cons p rest ih =>
    obtain ⟨pk, pv⟩ := p
    intro w h
    rw [alSet]
    by_cases hk : pk = k
    · subst hk
      rw [if_pos rfl]
      simp
    · rw [if_neg hk]
      rw [alGet, if_neg hk] at h
      simp only [List.map_cons]
      rw [ih h]

theorem alGet_of_mem_nodup {κ ν : Type} [DecidableEq κ] {k : κ} {v : ν} :
    ∀ {m : List (κ × ν)}, (m.map Prod.fst).Nodup → (k, v) ∈ m →
      alGet k m = some v := by
  intro m
  induction m with
  | nil => intro _ h; exact absurd h (by simp)
  | cons p rest ih =>
    obtain ⟨pk, pv⟩ := p
    intro hnd hmem
    rw [List.map_cons, List.nodup_cons] at hnd
    rcases List.mem_cons.mp hmem with h1 | h1
    · obtain ⟨rfl, rfl⟩ := Prod.mk.inj h1.symm
      rw [alGet, if_pos rfl]
    · have hkne : pk ≠ k := by
        intro hk
        subst hk
        exact hnd.1 (List.mem_map.mpr ⟨(pk, v), h1, rfl⟩)
      rw [alGet, if_neg hkne]
      exact ih hnd.2 h1

theorem mem_setAdd {s : List Str} {t t' : Str} :
    t' ∈ setAdd s t ↔ t' ∈ s ∨ t' = t := by
  rw [setAdd]
  by_cases h : t ∈ s
  · rw [if_pos h]
    constructor
    · exact Or.inl
    · rintro (h1 | rfl)
      · exact h1
      · exact h
  · rw [if_neg h]
    simp


/-- Key-set and recorded-term characterization of the posting fold inside
`scoreTermInField` (with `g p` the final score contributed by posting
`p`). -/
theorem foldPostings_memTerms (term : Str) (g : Posting → Rat) :
    ∀ (ps : List Posting) (ds : DocScores) (d : Nat) (t' : Str),
      memTerms (ps.foldl (fun ds p =>
        match alGet p.docId ds with
        | some e => alSet p.docId ⟨e.score + g p, setAdd e.terms term⟩ ds
        | none => ds ++ [(p.docId, ⟨g p, [term]⟩)]) ds) d t'
      ↔ memTerms ds d t' ∨ (t' = term ∧ ∃ p ∈ ps, p.docId = d) := by
  intro ps
  induction ps with
  | nil =>
    intro ds d t'
    simp [List.foldl_nil]
  | cons p ps ih =>
    intro ds d t'
    rw [List.foldl_cons, ih]
    have hstep : memTerms (match alGet p.docId ds with
        | some e => alSet p.docId ⟨e.score + g p, setAdd e.terms term⟩ ds
        | none => ds ++ [(p.docId, ⟨g p, [term]⟩)]) d t'
        ↔ memTerms ds d t' ∨ (t' = term ∧ p.docId = d) := by
      cases hget : alGet p.docId ds with
      | some e =>
        simp only []
        by_cases hd : p.docId = d
        · subst hd
          rw [memTerms]
          constructor
          · rintro ⟨e', he', ht'⟩
            rw [alGet_alSet_self] at he'
            obtain rfl := Option.some.inj he'
            rcases mem_setAdd.mp ht' with h1 | h1
            · exact Or.inl ⟨e, hget, h1⟩
            · exact Or.inr ⟨h1, rfl⟩
          · rintro (⟨e', he', ht'⟩ | ⟨rfl, _⟩)
            · obtain rfl : e = e' := by
                rw [hget] at he'
                exact Option.some.inj he'
              exact ⟨_, alGet_alSet_self _ _ _, mem_setAdd.mpr (Or.inl ht')⟩
            · exact ⟨_, alGet_alSet_self _ _ _, mem_setAdd.mpr (Or.inr rfl)⟩
        · rw [memTerms, memTerms]
          rw [alGet_alSet_ne _ (fun h => hd h.symm)]
          constructor
          · intro h
            exact Or.inl h
          · rintro (h | ⟨_, hdd⟩)
            · exact h
            · exact absurd hdd hd
      | none =>
        simp only []
        by_cases hd : p.docId = d
        · subst hd
          rw [memTerms, memTerms]
          rw [alGet_append, hget, alGet, if_pos rfl]
          constructor
          · rintro ⟨e', he', ht'⟩
            obtain rfl := Option.some.inj he'
            rcases List.mem_singleton.mp ht' with rfl
            exact Or.inr ⟨rfl, rfl⟩
          · rintro (⟨e', he', _⟩ | ⟨rfl, _⟩)
            · exact absurd he' (by simp)
            · exact ⟨_, rfl, List.mem_singleton.mpr rfl⟩
        · rw [memTerms, memTerms]
          rw [alGet_append]
          cases hget2 : alGet d ds with
          | some e2 =>
            constructor
            · rintro ⟨e', he', ht'⟩
              exact Or.inl ⟨e', he', ht'⟩
            · rintro (⟨e', he', ht'⟩ | ⟨_, hdd⟩)
              · exact ⟨e', he', ht'⟩
              · exact absurd hdd hd
          | none =>
            rw [alGet, if_neg hd, alGet]
            constructor
            · rintro ⟨e', he', ht'⟩
              exact absurd he' (by simp)
            · rintro (⟨e', he', ht'⟩ | ⟨_, hdd⟩)
              · exact absurd he' (by simp)
              · exact absurd hdd hd
    rw [hstep]
    constructor
    · rintro ((h | ⟨rfl, hd⟩) | ⟨rfl, p2, hp2, hd2⟩)
      · exact Or.inl h
      · exact Or.inr ⟨rfl, p, List.mem_cons_self _ _, hd⟩
      · exact Or.inr ⟨rfl, p2, List.mem_cons_of_mem _ hp2, hd2⟩
    · rintro (h | ⟨rfl, p2, hp2, hd2⟩)
      · exact Or.inl (Or.inl h)
      · rcases List.mem_cons.mp hp2 with rfl | h2
        · exact Or.inl (Or.inr ⟨rfl, hd2⟩)
        · exact Or.inr ⟨rfl, p2, h2, hd2⟩


/-- The posting fold preserves duplicate-free accumulator keys. -/
theorem foldPostings_keys (term : Str) (g : Posting → Rat) :
    ∀ (ps : List Posting) (ds : DocScores), ((ds.map Prod.fst).Nodup) →
      (((ps.foldl (fun ds p =>
        match alGet p.docId ds with
        | some e => alSet p.docId ⟨e.score + g p, setAdd e.terms term⟩ ds
        | none => ds ++ [(p.docId, ⟨g p, [term]⟩)]) ds).map Prod.fst).Nodup) := by
  intro ps
  induction ps with
  | nil => intro ds h; exact h
  | cons p ps ih =>
    intro ds h
    rw [List.foldl_cons]
    refine ih _ ?_
    cases hget : alGet p.docId ds with
    | some e =>
      simp only []
      rw [alSet_keys_of_mem _ hget]
      exact h
    | none =>
      simp only []
      rw [List.map_append]
      rw [List.nodup_append]
      refine ⟨h, by simp, ?_⟩
      intro k hk hk2
      simp only [List.map_cons, List.map_nil, List.mem_singleton] at hk2
      subst hk2
      exact (alGet_eq_none_iff _ _).mp hget hk

/-- Effect of one `scoreTermInField` call on the recorded terms, plus
key-set preservation. -/
theorem scoreTermInField_memTerms (lg : Rat → Rat) (idx : InvertedIndex)
    (cfg : SearchConfig) (term : Str) (f : Field) (ip : Bool)
    (ds : DocScores) (c : IdfCache) (d : Nat) (t' : Str) :
    (memTerms (scoreTermInField lg term f idx ds cfg ip c).1 d t' ↔
        memTerms ds d t' ∨ (t' = term ∧ postingHit idx term f d)) ∧
      ((ds.map Prod.fst).Nodup →
        (((scoreTermInField lg term f idx ds cfg ip c).1).map Prod.fst).Nodup) := by
  rw [scoreTermInField]
  cases hget : alGet term (getFieldIndex idx f).termPostings with
  | none =>
    constructor
    · rw [postingHit, hget]
      simp
    · intro h
      exact h
  | some ps =>
    simp only []
    by_cases hz : ps.length = 0
    · rw [if_pos hz]
      obtain rfl := List.length_eq_zero.mp hz
      constructor
      · rw [postingHit, hget]
        simp
      · intro h
        exact h
    · rw [if_neg hz]
      constructor
      · rw [foldPostings_memTerms term _ ps ds d t', postingHit, hget]
        rfl
      · intro h
        exact foldPostings_keys term _ ps ds h


/-- Effect of a list of scoring calls on the recorded terms, plus
key-set preservation. -/
theorem applyCalls_memTerms (lg : Rat → Rat) (idx : InvertedIndex)
    (cfg : SearchConfig) :
    ∀ (calls : List (Str × Field × Bool)) (st : DocScores × IdfCache)
      (d : Nat) (t' : Str),
      (memTerms (applyCalls lg idx cfg st calls).1 d t' ↔
          memTerms st.1 d t' ∨
            ∃ cl ∈ calls, t' = cl.1 ∧ postingHit idx cl.1 cl.2.1 d) ∧
        ((st.1.map Prod.fst).Nodup →
          (((applyCalls lg idx cfg st calls).1).map Prod.fst).Nodup) := by
  intro calls
  induction calls with
  | nil =>
    intro st d t'
    constructor
    · rw [applyCalls, List.foldl_nil]
      constructor
      · exact Or.inl
      · rintro (h | ⟨cl, hcl, _⟩)
        · exact h
        · exact absurd hcl (List.not_mem_nil cl)
    · intro h; exact h
  | cons cl calls ih =>
    intro st d t'
    have hstep := scoreTermInField_memTerms lg idx cfg cl.1 cl.2.1 cl.2.2
      st.1 st.2 d t'
    have hrest := ih (scoreTermInField lg cl.1 cl.2.1 idx st.1 cfg cl.2.2 st.2) d t'
    have hun : applyCalls lg idx cfg st (cl :: calls)
        = applyCalls lg idx cfg
            (scoreTermInField lg cl.1 cl.2.1 idx st.1 cfg cl.2.2 st.2) calls := rfl
    rw [hun]
    constructor
    · rw [hrest.1, hstep.1]
      constructor
      · rintro ((h | ⟨rfl, hhit⟩) | ⟨cl2, hcl2, rfl, hhit⟩)
        · exact Or.inl h
        · exact Or.inr ⟨cl, List.mem_cons_self _ _, rfl, hhit⟩
        · exact Or.inr ⟨cl2, List.mem_cons_of_mem _ hcl2, rfl, hhit⟩
      · rintro (h | ⟨cl2, hcl2, rfl, hhit⟩)
        · exact Or.inl (Or.inl h)
        · rcases List.mem_cons.mp hcl2 with rfl | h2
          · exact Or.inl (Or.inr ⟨rfl, hhit⟩)
          · exact Or.inr ⟨cl2, h2, rfl, hhit⟩
    · intro h
      exact hrest.2 (hstep.2 h)

/-- Folding with a skip over one value equals folding the filtered list. -/
theorem foldl_skip {σ : Type} (term : Str) (g : σ → Str → σ) :
    ∀ (l : List Str) (st : σ),
      l.foldl (fun st pt => if pt = term then st else g st pt) st
        = (l.filter (fun pt => pt ≠ term)).foldl g st := by
  intro l
  induction l with
  | nil => intro st; rfl
  | cons pt l ih =>
    intro st
    rw [List.foldl_cons, List.filter_cons]
    by_cases hp : pt = term
    · rw [if_pos hp, if_neg (by simp [hp]), ih]
    · rw [if_neg hp, if_pos (by simpa using hp), List.foldl_cons, ih]

/-- One query term's processing is exactly the fold of its call list. -/
theorem processTerm_eq_applyCalls (lg : Rat → Rat) (idx : InvertedIndex)
    (cfg : SearchConfig) (st : DocScores × IdfCache) (term : Str) :
    processTerm lg idx cfg st term
      = applyCalls lg idx cfg st (callsOfTerm idx cfg term) := by
  rw [processTerm, callsOfTerm, applyCalls]
  by_cases hmin : cfg.minPrefixLength ≤ term.length
  · rw [if_pos hmin, if_pos hmin]
    rw [List.foldl_append, List.foldl_append, List.foldl_append]
    rw [List.foldl_map, List.foldl_map, List.foldl_map]
    simp only []
    rw [foldl_skip term (fun st pt =>
        scoreTermInField lg pt Field.suchtext idx st.1 cfg true st.2),
      foldl_skip term (fun st pt =>
        scoreTermInField lg pt Field.fotografen idx st.1 cfg true st.2),
      foldl_skip term (fun st pt =>
        scoreTermInField lg pt Field.bildnummer idx st.1 cfg true st.2)]
    rfl
  · rw [if_neg hmin, if_neg hmin]
    rfl

/-- The query-term fold is the flat fold over all performed calls. -/
theorem foldl_processTerm_eq (lg : Rat → Rat) (idx : InvertedIndex)
    (cfg : SearchConfig) :
    ∀ (terms : List Str) (st : DocScores × IdfCache),
      terms.foldl (processTerm lg idx cfg) st
        = applyCalls lg idx cfg st (performedCalls idx cfg terms) := by
  intro terms
  induction terms with
  | nil => intro st; rfl
  | cons t ts ih =>
    intro st
    simp only [List.foldl_cons, processTerm_eq_applyCalls, ih, performedCalls,
      applyCalls, List.flatMap_cons, List.foldl_append]


/-- C10: for a query with a non-empty token list, each returned result's
`matchedTerms` contains exactly the terms that were scored against that
document (exact query tokens in any field, and prefix-expanded
vocabulary terms in the field whose expansion produced them — recorded
as the expanded term, not the query token) and that have a posting for
the document in the field they were scored in; consequently every
element of `matchedTerms` is a key of some field's term→postings map. -/
theorem C10_matched_terms (lg : Rat → Rat) (idx : InvertedIndex)
    (cfg : SearchConfig) (q : Str) (c : IdfCache) (r : SearchResult)
    (hq : tokenize q ≠ []) (hr : r ∈ (search lg q idx cfg c).1) :
    (∀ t, t ∈ r.matchedTerms ↔
        ∃ cl ∈ performedCalls idx cfg (tokenize q),
          t = cl.1 ∧ postingHit idx cl.1 cl.2.1 r.docId) ∧
      (∀ t ∈ r.matchedTerms, ∃ f, t ∈ termKeys (getFieldIndex idx f)) := by
  rw [search] at hr
  rw [if_neg hq] at hr
  have hr2 : r ∈ (((tokenize q).foldl (processTerm lg idx cfg) ([], c)).1).filterMap
      (fun p => (getDocument idx p.1).map (fun item =>
        (⟨p.1, item, p.2.score, p.2.terms⟩ : SearchResult))) :=
    (List.perm_insertionSort _ _).mem_iff.mp hr
  obtain ⟨⟨d, e⟩, hde, hFr⟩ := List.mem_filterMap.mp hr2
  cases hdoc : getDocument idx d with
  | none =>
    rw [hdoc] at hFr
    exact absurd hFr (by simp)
  | some item =>
    rw [hdoc] at hFr
    obtain rfl : (⟨d, item, e.score, e.terms⟩ : SearchResult) = r := by
      simpa using hFr
    have hacc := foldl_processTerm_eq lg idx cfg (tokenize q) ([], c)
    have hkeys : ((((tokenize q).foldl (processTerm lg idx cfg) ([], c)).1).map
        Prod.fst).Nodup := by
      rw [hacc]
      exact (applyCalls_memTerms lg idx cfg _ ([], c) 0 []).2 (by simp)
    have hget : alGet d (((tokenize q).foldl (processTerm lg idx cfg) ([], c)).1)
        = some e := alGet_of_mem_nodup hkeys hde
    have hempty : ∀ t : Str, ¬ memTerms (([] : DocScores), c).1 d t := by
      intro t ht
      obtain ⟨e', he', _⟩ := ht
      rw [alGet] at he'
      exact absurd he' (by simp)
    have hmain : ∀ t, t ∈ e.terms ↔
        ∃ cl ∈ performedCalls idx cfg (tokenize q),
          t = cl.1 ∧ postingHit idx cl.1 cl.2.1 d := by
      intro t
      have hchar := (applyCalls_memTerms lg idx cfg
        (performedCalls idx cfg (tokenize q)) ([], c) d t).1
      constructor
      · intro ht
        have hm : memTerms (applyCalls lg idx cfg ([], c)
            (performedCalls idx cfg (tokenize q))).1 d t := by
          rw [← hacc]
          exact ⟨e, hget, ht⟩
        rcases hchar.mp hm with h | h
        · exact absurd h (hempty t)
        · exact h
      · intro hcl
        have hm := hchar.mpr (Or.inr hcl)
        rw [← hacc] at hm
        obtain ⟨e', he', ht'⟩ := hm
        obtain rfl : e = e' := by
          rw [hget] at he'
          exact Option.some.inj he'
        exact ht'
    refine ⟨hmain, ?_⟩
    intro t ht
    obtain ⟨cl, _, rfl, hhit⟩ := (hmain t).mp ht
    obtain ⟨p, hp, _⟩ := hhit
    cases hget2 : alGet cl.1 (getFieldIndex idx cl.2.1).termPostings with
    | none =>
      rw [hget2] at hp
      exact absurd hp (by simp)
    | some ps =>
      exact ⟨cl.2.1, alGet_some_mem_keys hget2⟩


set_option maxRecDepth 10000 in
/-- Witness for C10 at the query `"berlin"` over the sample index. -/
theorem C10_matched_terms_witness :
    tokenize (strL "berlin") ≠ [] ∧
      (⟨0, itemMarch, 18/5, [strL "berlin"]⟩ : SearchResult)
        ∈ (search lgId (strL "berlin") idxSample DEFAULT_SEARCH_CONFIG []).1 ∧
      ∀ t ∈ [strL "berlin"], ∃ f, t ∈ termKeys (getFieldIndex idxSample f) := by
  refine ⟨by decide, by with_unfolding_all decide, ?_⟩
  exact (C10_matched_terms lgId idxSample DEFAULT_SEARCH_CONFIG
    (strL "berlin") [] ⟨0, itemMarch, 18/5, [strL "berlin"]⟩
    (by decide) (by with_unfolding_all decide)).2

end ImagoSearch
